import Mathlib

/-!
Verification of the StampMod color-reduction pipeline
(`src/imagePawcessor/imagePawcess.py`) against its specification.

The Python source is shallowly embedded: pixel buffers become explicit
`Image` structures over total pixel functions, numpy argmin/vectorized
scans become list recursions, file writes become lists of `StampLine`
values, and the ambient RNG of `np.random` becomes an explicit stream
parameter.  All distance computations of the source act on byte-valued
channels, whose float32 arithmetic is exact for the magnitudes involved,
so integer arithmetic is a faithful model.  The external cv2 color-space
conversion (`cv2.cvtColor` RGB->LAB, a per-pixel transform on byte
triples) is threaded through as an explicit conversion-function
parameter `Conv`; RGB mode instantiates it with the identity embedding
`rgbConv`.
-/

set_option maxRecDepth 10000

namespace StampMod

/-- An RGBA pixel: four byte channels (the source stores uint8 values). -/
structure Pixel where
  r : ℕ
  g : ℕ
  b : ℕ
  a : ℕ
deriving DecidableEq

/-- The RGB triple of a pixel, as read by `find_closest_color` (`pixel[:3]`). -/
def Pixel.rgb (p : Pixel) : ℕ × ℕ × ℕ := (p.r, p.g, p.b)

/-- A pixel buffer: 2-D grid of RGBA pixels, origin top-left, row-major. -/
structure Image where
  width : ℕ
  height : ℕ
  pix : ℕ → ℕ → Pixel

/-- The palette (`color_key`): the insertion-ordered dict `number -> rgb`
built by `build_color_key`, embedded as an association list. -/
abbrev ColorKey := List (ℤ × (ℕ × ℕ × ℕ))

/-- A color-space conversion applied to byte triples before distance
computation.  RGB mode uses the raw channels; LAB mode uses the cv2
RGB->LAB conversion, which is an opaque per-pixel function on byte
triples and is therefore a parameter of the embedding. -/
abbrev Conv := ℕ × ℕ × ℕ → ℤ × ℤ × ℤ

/-- The RGB-mode conversion: channels used as-is (`use_lab == False`). -/
def rgbConv : Conv := fun c => (Int.ofNat c.1, Int.ofNat c.2.1, Int.ofNat c.2.2)

/-- Squared Euclidean distance between two converted byte triples, the
quantity `np.sum(diff**2)` of `find_closest_color`. -/
def distSq (conv : Conv) (p q : ℕ × ℕ × ℕ) : ℤ :=
  ((conv p).1 - (conv q).1) ^ 2 + ((conv p).2.1 - (conv q).2.1) ^ 2 +
    ((conv p).2.2 - (conv q).2.2) ^ 2

/-- Helper for `np.argmin`: scans the list keeping the first index at
which the minimum value occurs, returning index and value. -/
def argminAux : List ℤ → Option (ℕ × ℤ)
  | [] => none
  | x :: xs =>
    match argminAux xs with
    | none => some (0, x)
    | some (j, m) => if x ≤ m then some (0, x) else some (j + 1, m)

/-- The model of `np.argmin`: first index of the minimum, `none` on an
empty array (numpy raises ValueError there). -/
def argminIdx (l : List ℤ) : Option ℕ :=
  (argminAux l).map Prod.fst

theorem argminAux_eq_none {l : List ℤ} : argminAux l = none ↔ l = [] := by
  cases l with
  | nil => simp [argminAux]
  | cons x xs =>
    simp only [argminAux]
    cases h : argminAux xs with
    | none => simp
    | some p =>
      obtain ⟨j, m⟩ := p
      by_cases hx : x ≤ m <;> simp [hx]

theorem argminAux_isSome {l : List ℤ} (h : l ≠ []) :
    ∃ i m, argminAux l = some (i, m) := by
  cases hl : argminAux l with
  | none => exact absurd (argminAux_eq_none.mp hl) h
  | some p =>
    obtain ⟨j, m⟩ := p
    exact ⟨j, m, rfl⟩

theorem argminAux_getElem {l : List ℤ} {i : ℕ} {m : ℤ}
    (h : argminAux l = some (i, m)) : l[i]? = some m := by
  induction l generalizing i m with
  | nil => simp [argminAux] at h
  | cons x xs ih =>
    simp only [argminAux] at h
    cases hxs : argminAux xs with
    | none =>
      rw [hxs] at h
      simp only [Option.some.injEq, Prod.mk.injEq] at h
      obtain ⟨rfl, rfl⟩ := h
      simp
    | some p =>
      obtain ⟨j, m0⟩ := p
      rw [hxs] at h
      by_cases hx : x ≤ m0
      · simp only [hx, if_true, Option.some.injEq, Prod.mk.injEq] at h
        obtain ⟨rfl, rfl⟩ := h
        simp
      · simp only [hx, if_false, Option.some.injEq, Prod.mk.injEq] at h
        obtain ⟨rfl, rfl⟩ := h
        simpa using ih hxs

theorem argminAux_min {l : List ℤ} {i : ℕ} {m : ℤ}
    (h : argminAux l = some (i, m)) :
    ∀ j v, l[j]? = some v → m ≤ v ∧ (j < i → m < v) := by
  induction l generalizing i m with
  | nil => simp [argminAux] at h
  | cons x xs ih =>
    intro j v hjv
    simp only [argminAux] at h
    cases hxs : argminAux xs with
    | none =>
      have hnil : xs = [] := argminAux_eq_none.mp hxs
      rw [hxs] at h
      simp only [Option.some.injEq, Prod.mk.injEq] at h
      obtain ⟨rfl, rfl⟩ := h
      subst hnil
      cases j with
      | zero => simp at hjv; omega
      | succ n => simp at hjv
    | some p =>
      obtain ⟨j0, m0⟩ := p
      rw [hxs] at h
      by_cases hx : x ≤ m0
      · simp only [hx, if_true, Option.some.injEq, Prod.mk.injEq] at h
        obtain ⟨rfl, rfl⟩ := h
        cases j with
        | zero => simp at hjv; omega
        | succ n =>
          simp only [List.getElem?_cons_succ] at hjv
          have := (ih hxs n v hjv).1
          exact ⟨le_trans hx this, by omega⟩
      · simp only [hx, if_false, Option.some.injEq, Prod.mk.injEq] at h
        obtain ⟨rfl, rfl⟩ := h
        push_neg at hx
        cases j with
        | zero =>
          simp only [List.getElem?_cons_zero, Option.some.injEq] at hjv
          subst hjv
          exact ⟨le_of_lt hx, fun _ => hx⟩
        | succ n =>
          simp only [List.getElem?_cons_succ] at hjv
          have := ih hxs n v hjv
          exact ⟨this.1, fun hn => this.2 (by omega)⟩

theorem argminAux_idx_lt {l : List ℤ} {i : ℕ} {m : ℤ}
    (h : argminAux l = some (i, m)) : i < l.length := by
  have := argminAux_getElem h
  exact List.getElem?_eq_some.mp this |>.1

/-- The palette numbers array `color_nums = list(color_key.keys())`. -/
def palNums (ck : ColorKey) : List ℤ := ck.map Prod.fst

/-- The palette values array `color_values_rgb = list(color_key.values())`. -/
def palVals (ck : ColorKey) : List (ℕ × ℕ × ℕ) := ck.map Prod.snd

/-- The distance array `dist_sq` computed against every palette entry. -/
def palDists (conv : Conv) (ck : ColorKey) (p : ℕ × ℕ × ℕ) : List ℤ :=
  (palVals ck).map (fun v => distSq conv p v)

/-- Embedding of `find_closest_color(pixel, color_key)`: squared
Euclidean distances to every palette entry (after the color-space
conversion of the current mode), `np.argmin`, then `color_nums[idx]`.
Returns `none` when the palette is empty (numpy raises ValueError). -/
def find_closest_color (conv : Conv) (ck : ColorKey) (p : ℕ × ℕ × ℕ) : Option ℤ :=
  (argminIdx (palDists conv ck p)).bind (fun i => (palNums ck)[i]?)

/-- Embedding of `find_closest_colors_image(image_array, color_key)`:
the batched per-pixel argmin over the same distance computation,
writing `color_values_rgb[closest_indices]` and re-attaching the
original alpha channel.  Returns `none` when the palette is empty
(the vectorized broadcast raises in numpy). -/
def find_closest_colors_image (conv : Conv) (ck : ColorKey) (img : Image) :
    Option Image :=
  if ck = [] then none
  else some
    { width := img.width
      height := img.height
      pix := fun x y =>
        let p := img.pix x y
        match argminIdx (palDists conv ck p.rgb) with
        | some i =>
          match (palVals ck)[i]? with
          | some v => ⟨v.1, v.2.1, v.2.2, p.a⟩
          | none => p
        | none => p }

/-- C2: for every image and non-empty palette, in both color-space modes
(any per-pixel conversion `conv`, covering RGB and LAB), the batched
classifier `find_closest_colors_image` assigns each pixel exactly the
palette entry that the scalar `find_closest_color` selects for that
pixel's RGB value: both take the first index minimizing the squared
Euclidean distance (ties won by the first-encountered entry), the scalar
returns that entry's number and the batched image holds that entry's RGB
with the original alpha. -/
theorem find_closest_colors_image_equiv_scalar
    (conv : Conv) (ck : ColorKey) (hck : ck ≠ []) (img : Image) :
    ∃ out, find_closest_colors_image conv ck img = some out ∧
      out.width = img.width ∧ out.height = img.height ∧
      ∀ x y, ∃ (i : ℕ) (e : ℤ × (ℕ × ℕ × ℕ)) (dv : ℤ),
        ck[i]? = some e ∧
        (palDists conv ck (img.pix x y).rgb)[i]? = some dv ∧
        find_closest_color conv ck (img.pix x y).rgb = some e.1 ∧
        out.pix x y = ⟨e.2.1, e.2.2.1, e.2.2.2, (img.pix x y).a⟩ ∧
        (∀ j v, (palDists conv ck (img.pix x y).rgb)[j]? = some v →
          dv ≤ v ∧ (j < i → dv < v)) := by
  rw [find_closest_colors_image, if_neg hck]
  refine ⟨_, rfl, rfl, rfl, ?_⟩
  intro x y
  have hd : palDists conv ck (img.pix x y).rgb ≠ [] := by
    simp [palDists, palVals, hck]
  obtain ⟨i, m, him⟩ := argminAux_isSome hd
  have hidx : argminIdx (palDists conv ck (img.pix x y).rgb) = some i := by
    simp [argminIdx, him]
  have hlt : i < (palDists conv ck (img.pix x y).rgb).length := argminAux_idx_lt him
  have hlen : (palDists conv ck (img.pix x y).rgb).length = ck.length := by
    simp [palDists, palVals]
  have hick : i < ck.length := by omega
  have he : ck[i]? = some ck[i] := List.getElem?_eq_getElem hick
  refine ⟨i, ck[i], m, he, argminAux_getElem him, ?_, ?_, ?_⟩
  · have hn : (palNums ck)[i]? = some (ck[i]).1 := by
      simp only [palNums, List.getElem?_map, he, Option.map_some']
    simp [find_closest_color, hidx, hn]
  · have hv : (palVals ck)[i]? = some (ck[i]).2 := by
      simp only [palVals, List.getElem?_map, he, Option.map_some']
    simp only [hidx, hv]
  · exact fun j v hjv => argminAux_min him j v hjv

/-- A concrete 1x1 fully opaque test image. -/
def imgOne : Image := ⟨1, 1, fun _ _ => ⟨1, 2, 3, 255⟩⟩

/-- A concrete one-entry palette. -/
def ckOne : ColorKey := [(0, (7, 7, 7))]

/-- Witness for C2 at a concrete one-pixel image and one-entry palette
in RGB mode. -/
theorem find_closest_colors_image_equiv_scalar_witness :
    ckOne ≠ [] ∧
      ∃ out, find_closest_colors_image rgbConv ckOne imgOne = some out ∧
        out.width = imgOne.width ∧ out.height = imgOne.height ∧
        ∀ x y, ∃ (i : ℕ) (e : ℤ × (ℕ × ℕ × ℕ)) (dv : ℤ),
          ckOne[i]? = some e ∧
          (palDists rgbConv ckOne (imgOne.pix x y).rgb)[i]? = some dv ∧
          find_closest_color rgbConv ckOne (imgOne.pix x y).rgb = some e.1 ∧
          out.pix x y = ⟨e.2.1, e.2.2.1, e.2.2.2, (imgOne.pix x y).a⟩ ∧
          (∀ j v, (palDists rgbConv ckOne (imgOne.pix x y).rgb)[j]? = some v →
            dv ≤ v ∧ (j < i → dv < v)) :=
  ⟨by decide, find_closest_colors_image_equiv_scalar rgbConv ckOne (by decide) imgOne⟩

/-! ## Static encoder (`process_and_save_image`, stamp.txt writing) -/

/-- A line of the stamp / frames text format, with numeric fields kept
as exact rationals. -/
inductive StampLine where
  | imgHeader (w h : ℚ)
  | gifHeader (w h : ℚ) (frames : ℕ) (delay : ℤ)
  | frameHeader (idx : ℕ) (delay : Option ℤ)
  | point (x y : ℚ) (n : ℤ)
deriving DecidableEq

/-- The coordinate scaling `round(v * 0.1, 1)` of the encoders.  For a
natural `v` the product `v * 0.1` rounds to the one-decimal value
`v / 10` exactly, so the embedding keeps the exact rational `v / 10`. -/
def scale10 (v : ℕ) : ℚ := mkRat (Int.ofNat v) 10

/-- The body of the static encoder's per-pixel loop: skip the pixel when
`a <= 191`, otherwise map it through `find_closest_color` and write the
line `scaled_x,scaled_y,closest_color_num` with the flipped Y
coordinate.  A per-pixel failure of the lookup is caught by the loop's
`except` handler and the pixel is skipped. -/
def stampEmitLine (conv : Conv) (ck : ColorKey) (height x y : ℕ) (p : Pixel) :
    Option StampLine :=
  if p.a ≤ 191 then none
  else (find_closest_color conv ck p.rgb).map
    (fun n => StampLine.point (scale10 x) (scale10 (height - 1 - y)) n)

/-- Embedding of the stamp-writing loop of `process_and_save_image`:
first the header `scaled_width,scaled_height,img`, then a scan from the
last row to the first (`range(height - 1, -1, -1)`), left-to-right
inside each row, appending the emitted line of each pixel. -/
def encodeStatic (conv : Conv) (ck : ColorKey) (img : Image) : List StampLine :=
  (List.range img.height).reverse.foldl
    (fun acc y =>
      (List.range img.width).foldl
        (fun acc2 x => acc2 ++ (stampEmitLine conv ck img.height x y (img.pix x y)).toList)
        acc)
    [StampLine.imgHeader (scale10 img.width) (scale10 img.height)]

theorem foldl_append_of_step {α β : Type} (step : List β → α → List β)
    (g : α → List β) (hstep : ∀ acc a, step acc a = acc ++ g a) :
    ∀ (l : List α) (init : List β), l.foldl step init = init ++ l.flatMap g
  | [], init => by simp
  | a :: l, init => by
    rw [List.foldl_cons, hstep, List.flatMap_cons,
      foldl_append_of_step step g hstep l, List.append_assoc]

theorem flatMap_toList_eq_filterMap {α β : Type} (f : α → Option β) :
    ∀ l : List α, (l.flatMap fun a => (f a).toList) = l.filterMap f
  | [] => by simp
  | a :: l => by
    simp only [List.flatMap_cons, List.filterMap_cons]
    cases h : f a <;> simp [h, flatMap_toList_eq_filterMap f l]

theorem encodeStatic_eq (conv : Conv) (ck : ColorKey) (img : Image) :
    encodeStatic conv ck img =
      StampLine.imgHeader (scale10 img.width) (scale10 img.height) ::
        (List.range img.height).reverse.flatMap (fun y =>
          (List.range img.width).filterMap (fun x =>
            stampEmitLine conv ck img.height x y (img.pix x y))) := by
  unfold encodeStatic
  rw [foldl_append_of_step _
    (fun y => (List.range img.width).filterMap
      (fun x => stampEmitLine conv ck img.height x y (img.pix x y)))
    (fun acc y => by
      rw [foldl_append_of_step _
        (fun x => (stampEmitLine conv ck img.height x y (img.pix x y)).toList)
        (fun acc2 x => rfl), flatMap_toList_eq_filterMap])]
  simp

/-- With a non-empty palette the nearest-color lookup always succeeds. -/
theorem find_closest_color_isSome (conv : Conv) {ck : ColorKey} (hck : ck ≠ [])
    (p : ℕ × ℕ × ℕ) : (find_closest_color conv ck p).isSome = true := by
  have hd : palDists conv ck p ≠ [] := by simp [palDists, palVals, hck]
  obtain ⟨i, m, him⟩ := argminAux_isSome hd
  have hidx : argminIdx (palDists conv ck p) = some i := by simp [argminIdx, him]
  have hlt : i < (palDists conv ck p).length := argminAux_idx_lt him
  have hlen : (palDists conv ck p).length = (palNums ck).length := by
    simp [palDists, palVals, palNums]
  have : i < (palNums ck).length := by omega
  have hn : (palNums ck)[i]? = some (palNums ck)[i] := List.getElem?_eq_getElem this
  simp [find_closest_color, hidx, hn]

/-- A concrete 2x2 fully opaque image. -/
def imgTwo : Image := ⟨2, 2, fun _ _ => ⟨10, 20, 30, 255⟩⟩

/-- A concrete one-entry palette with number 3. -/
def ckThree : ColorKey := [(3, (0, 0, 0))]

/-- C1: the static encoder writes the header with width and height
scaled by 0.1, then scans rows bottom-to-top and columns left-to-right,
skips every pixel with alpha <= 191, and emits for each surviving pixel
exactly one point line `(x/10, (height-1-y)/10, n)` with `n` the nearest
palette color number (the lookup always succeeds on a non-empty
palette); in particular a 2x2 fully opaque image with a one-entry
palette yields exactly the four flipped-Y point lines. -/
theorem encodeStatic_spec (conv : Conv) (ck : ColorKey) (hck : ck ≠ [])
    (img : Image) :
    (∀ c, (find_closest_color conv ck c).isSome = true) ∧
    encodeStatic conv ck img =
      StampLine.imgHeader (scale10 img.width) (scale10 img.height) ::
        (List.range img.height).reverse.flatMap (fun y =>
          (List.range img.width).filterMap (fun x =>
            if (img.pix x y).a ≤ 191 then none
            else (find_closest_color conv ck (img.pix x y).rgb).map
              (fun n => StampLine.point (scale10 x) (scale10 (img.height - 1 - y)) n))) ∧
    encodeStatic rgbConv ckThree imgTwo =
      [StampLine.imgHeader (scale10 2) (scale10 2),
       StampLine.point (scale10 0) (scale10 0) 3,
       StampLine.point (scale10 1) (scale10 0) 3,
       StampLine.point (scale10 0) (scale10 1) 3,
       StampLine.point (scale10 1) (scale10 1) 3] := by
  refine ⟨find_closest_color_isSome conv hck, ?_, ?_⟩
  · rw [encodeStatic_eq]
    rfl
  · decide

/-- Witness for C1 at the concrete 2x2 image and one-entry palette. -/
theorem encodeStatic_spec_witness :
    ckThree ≠ [] ∧
      ((∀ c, (find_closest_color rgbConv ckThree c).isSome = true) ∧
      encodeStatic rgbConv ckThree imgTwo =
        StampLine.imgHeader (scale10 imgTwo.width) (scale10 imgTwo.height) ::
          (List.range imgTwo.height).reverse.flatMap (fun y =>
            (List.range imgTwo.width).filterMap (fun x =>
              if (imgTwo.pix x y).a ≤ 191 then none
              else (find_closest_color rgbConv ckThree (imgTwo.pix x y).rgb).map
                (fun n => StampLine.point (scale10 x)
                  (scale10 (imgTwo.height - 1 - y)) n))) ∧
      encodeStatic rgbConv ckThree imgTwo =
        [StampLine.imgHeader (scale10 2) (scale10 2),
         StampLine.point (scale10 0) (scale10 0) 3,
         StampLine.point (scale10 1) (scale10 0) 3,
         StampLine.point (scale10 0) (scale10 1) 3,
         StampLine.point (scale10 1) (scale10 1) 3]) :=
  ⟨by decide, encodeStatic_spec rgbConv ckThree (by decide) imgTwo⟩

/-! ## Alpha thresholds (`color_matching`, `preprocess_image`, stamp output) -/

/-- The opaque-pixel mask of `preprocess_image`
(`opaque_mask = alpha_channel >= config['alpha_threshold']` with
`alpha_threshold = 191`), used for the percentile contrast statistics. -/
def preprocessOpaqueMask (alpha : ℕ) : Bool := 191 ≤ alpha

/-- Embedding of the `color_matching` processing method: run the batched
classifier over the whole array, then restore the original RGBA value of
every pixel outside the opaque mask `alpha_channel > 191`. -/
def color_matching (conv : Conv) (ck : ColorKey) (img : Image) : Option Image :=
  (find_closest_colors_image conv ck img).map (fun mapped =>
    { width := img.width
      height := img.height
      pix := fun x y =>
        if 191 < (img.pix x y).a then mapped.pix x y else img.pix x y })

/-- A concrete 1x1 black image whose single pixel has alpha exactly 191. -/
def imgA191 : Image := ⟨1, 1, fun _ _ => ⟨0, 0, 0, 191⟩⟩

/-- A concrete one-entry palette holding white. -/
def ckWhite : ColorKey := [(0, (255, 255, 255))]

/-- Counterexample to C6: a pixel with alpha exactly 191 is NOT treated
as opaque everywhere.  `color_matching` leaves it untouched (its RGB
stays black instead of being mapped to the palette's white) and the
static encoder emits no point line for it, while the preprocessing
statistics mask does count it as opaque. -/
theorem alpha191_not_opaque_everywhere :
    (color_matching rgbConv ckWhite imgA191).map (fun o => o.pix 0 0) =
      some ⟨0, 0, 0, 191⟩ ∧
    encodeStatic rgbConv ckWhite imgA191 =
      [StampLine.imgHeader (scale10 1) (scale10 1)] ∧
    preprocessOpaqueMask 191 = true := by
  decide

/-- C6 (amended): the preprocessing statistics mask classifies a pixel
as opaque exactly when alpha >= 191, but `color_matching` and inclusion
in the static stamp output treat a pixel as opaque exactly when
alpha > 191; a pixel with alpha exactly 191 is opaque for preprocessing
and non-opaque for matching and stamp output. -/
theorem alpha_thresholds_amended (conv : Conv) (ck : ColorKey) (hck : ck ≠ [])
    (img : Image) :
    (∀ alpha, preprocessOpaqueMask alpha = true ↔ 191 ≤ alpha) ∧
    (∃ mapped out, find_closest_colors_image conv ck img = some mapped ∧
      color_matching conv ck img = some out ∧
      ∀ x y, out.pix x y =
        if 191 < (img.pix x y).a then mapped.pix x y else img.pix x y) ∧
    (∀ height x y p,
      (stampEmitLine conv ck height x y p).isSome = true ↔ 191 < p.a) := by
  refine ⟨?_, ?_, ?_⟩
  · intro alpha
    simp [preprocessOpaqueMask]
  · obtain ⟨mapped, hm, -⟩ :=
      find_closest_colors_image_equiv_scalar conv ck hck img
    exact ⟨mapped, _, hm, by rw [color_matching, hm]; rfl, fun x y => rfl⟩
  · intro height x y p
    have hs := find_closest_color_isSome conv hck p.rgb
    obtain ⟨n, hn⟩ := Option.isSome_iff_exists.mp hs
    unfold stampEmitLine
    by_cases ha : p.a ≤ 191
    · rw [if_pos ha]
      simp
      omega
    · rw [if_neg ha, hn]
      simp
      omega

/-- Witness for the amended C6 at a concrete palette and image. -/
theorem alpha_thresholds_amended_witness :
    ckWhite ≠ [] ∧
      ((∀ alpha, preprocessOpaqueMask alpha = true ↔ 191 ≤ alpha) ∧
      (∃ mapped out,
        find_closest_colors_image rgbConv ckWhite imgA191 = some mapped ∧
        color_matching rgbConv ckWhite imgA191 = some out ∧
        ∀ x y, out.pix x y =
          if 191 < (imgA191.pix x y).a then mapped.pix x y else imgA191.pix x y) ∧
      (∀ height x y p,
        (stampEmitLine rgbConv ckWhite height x y p).isSome = true ↔ 191 < p.a)) :=
  ⟨by decide, alpha_thresholds_amended rgbConv ckWhite (by decide) imgA191⟩

/-! ## Transparency filtering and cropping before static encoding -/

/-- The transparency-filtering loop of `process_and_save_image`: every
RGBA pixel with alpha <= 191 is replaced by fully transparent
`(0, 0, 0, 0)`. -/
def filterTransparency (img : Image) : Image :=
  { width := img.width
    height := img.height
    pix := fun x y => if (img.pix x y).a ≤ 191 then ⟨0, 0, 0, 0⟩ else img.pix x y }

/-- Whether column `x` holds a pixel with nonzero alpha. -/
def colHasSolid (img : Image) (x : ℕ) : Bool :=
  (List.range img.height).any (fun y => (img.pix x y).a ≠ 0)

/-- Whether row `y` holds a pixel with nonzero alpha. -/
def rowHasSolid (img : Image) (y : ℕ) : Bool :=
  (List.range img.width).any (fun x => (img.pix x y).a ≠ 0)

/-- The columns containing a nonzero-alpha pixel, in increasing order. -/
def solidCols (img : Image) : List ℕ :=
  (List.range img.width).filter (colHasSolid img)

/-- The rows containing a nonzero-alpha pixel, in increasing order. -/
def solidRows (img : Image) : List ℕ :=
  (List.range img.height).filter (rowHasSolid img)

/-- Embedding of `crop_to_solid_area`: crop to the bounding box
`alpha.getbbox()` of the nonzero-alpha region (PIL returns
`(left, upper, right, lower)` with exclusive right/lower bounds), or a
1x1 fully transparent image when the whole image is transparent. -/
def crop_to_solid_area (img : Image) : Image :=
  match solidCols img, solidRows img with
  | x0 :: xs, y0 :: ys =>
    let x1 := ((x0 :: xs).getLast?).getD x0
    let y1 := ((y0 :: ys).getLast?).getD y0
    { width := x1 + 1 - x0
      height := y1 + 1 - y0
      pix := fun x y => img.pix (x0 + x) (y0 + y) }
  | _, _ => ⟨1, 1, fun _ _ => ⟨0, 0, 0, 0⟩⟩

/-- The static saving pipeline of `process_and_save_image` after the
processing method ran: filter transparency, crop to the solid area, then
encode the cropped image. -/
def process_and_save_image_static (conv : Conv) (ck : ColorKey) (img : Image) :
    Image × List StampLine :=
  let filtered := filterTransparency img
  let cropped := crop_to_solid_area filtered
  (cropped, encodeStatic conv ck cropped)

theorem filter_range_head_min {p : ℕ → Bool} {n a : ℕ} {as : List ℕ}
    (h : (List.range n).filter p = a :: as) :
    p a = true ∧ a < n ∧ ∀ x, x < a → p x = false := by
  have ha : a ∈ (List.range n).filter p := by rw [h]; exact List.mem_cons_self a as
  have hpa := List.mem_filter.mp ha
  have han : a < n := List.mem_range.mp hpa.1
  refine ⟨hpa.2, han, ?_⟩
  intro x hx
  by_contra hpx
  have hxtrue : p x = true := by
    cases hpxv : p x with
    | true => rfl
    | false => exact absurd hpxv hpx
  have hxmem : x ∈ (List.range n).filter p :=
    List.mem_filter.mpr ⟨List.mem_range.mpr (by omega), hxtrue⟩
  rw [h] at hxmem
  have hpw : (a :: as).Pairwise (· < ·) := by
    rw [← h]
    exact List.Pairwise.filter p (List.pairwise_lt_range n)
  rcases List.mem_cons.mp hxmem with rfl | hxas
  · omega
  · have := (List.pairwise_cons.mp hpw).1 x hxas
    omega

theorem mem_of_getLast?_eq {α : Type} {l : List α} {b : α}
    (hb : l.getLast? = some b) : b ∈ l := by
  obtain ⟨h, rfl⟩ := List.mem_getLast?_eq_getLast (Option.mem_def.mpr hb)
  exact List.getLast_mem h

theorem pairwise_lt_le_getLast {l : List ℕ} (hl : l.Pairwise (· < ·)) :
    ∀ {b : ℕ}, l.getLast? = some b → ∀ x ∈ l, x ≤ b := by
  induction l with
  | nil => intro b hb; simp at hb
  | cons a t ih =>
    intro b hb x hx
    cases t with
    | nil =>
      simp at hb hx
      omega
    | cons c t2 =>
      rw [List.getLast?_cons_cons] at hb
      have hbmem : b ∈ c :: t2 := mem_of_getLast?_eq hb
      have hpc := List.pairwise_cons.mp hl
      rcases List.mem_cons.mp hx with rfl | hxt
      · have := hpc.1 b hbmem
        omega
      · exact ih hpc.2 hb x hxt

theorem filter_range_getLast_max {p : ℕ → Bool} {n a : ℕ} {as : List ℕ}
    (h : (List.range n).filter p = a :: as) :
    ∃ b, (a :: as).getLast? = some b ∧ p b = true ∧ b < n ∧
      ∀ x, p x = true → x < n → x ≤ b := by
  have hpw : (a :: as).Pairwise (· < ·) := by
    rw [← h]
    exact List.Pairwise.filter p (List.pairwise_lt_range n)
  obtain ⟨b, hb⟩ : ∃ b, (a :: as).getLast? = some b := by
    cases hgl : (a :: as).getLast? with
    | none => simp [List.getLast?_eq_none_iff] at hgl
    | some b => exact ⟨b, rfl⟩
  have hbmem : b ∈ a :: as := mem_of_getLast?_eq hb
  have hbfil : b ∈ (List.range n).filter p := by rw [h]; exact hbmem
  have hbp := List.mem_filter.mp hbfil
  refine ⟨b, hb, hbp.2, List.mem_range.mp hbp.1, ?_⟩
  intro x hpx hxn
  have hxmem : x ∈ a :: as := by
    rw [← h]
    exact List.mem_filter.mpr ⟨List.mem_range.mpr hxn, hpx⟩
  exact pairwise_lt_le_getLast hpw hb x hxmem

/-- A concrete 3x3 image whose border pixels are all below the alpha
threshold and whose center pixel is fully opaque. -/
def imgBorder : Image :=
  ⟨3, 3, fun x y => if x = 1 ∧ y = 1 then ⟨9, 9, 9, 255⟩ else ⟨5, 5, 5, 100⟩⟩

/-- C10: before static encoding the pipeline replaces every pixel with
alpha <= 191 by `(0,0,0,0)`, crops to the bounding box of nonzero-alpha
pixels of the filtered image (1x1 transparent when none remains), and
the stamp header carries the scaled dimensions of this cropped image; on
a 3x3 input whose border is filtered away the header reads the cropped
1x1 size, not the input size. -/
theorem static_pipeline_crop_spec (conv : Conv) (ck : ColorKey) (img : Image) :
    (∀ x y, (filterTransparency img).pix x y =
      if (img.pix x y).a ≤ 191 then ⟨0, 0, 0, 0⟩ else img.pix x y) ∧
    ((solidCols (filterTransparency img) = [] ∨
        solidRows (filterTransparency img) = []) →
      crop_to_solid_area (filterTransparency img) =
        ⟨1, 1, fun _ _ => ⟨0, 0, 0, 0⟩⟩) ∧
    (∀ x0 xs y0 ys, solidCols (filterTransparency img) = x0 :: xs →
      solidRows (filterTransparency img) = y0 :: ys →
      ∃ x1 y1, (x0 :: xs).getLast? = some x1 ∧ (y0 :: ys).getLast? = some y1 ∧
        crop_to_solid_area (filterTransparency img) =
          ⟨x1 + 1 - x0, y1 + 1 - y0,
            fun x y => (filterTransparency img).pix (x0 + x) (y0 + y)⟩ ∧
        colHasSolid (filterTransparency img) x0 = true ∧
        (∀ x, x < x0 → colHasSolid (filterTransparency img) x = false) ∧
        colHasSolid (filterTransparency img) x1 = true ∧
        (∀ x, colHasSolid (filterTransparency img) x = true →
          x < (filterTransparency img).width → x ≤ x1) ∧
        rowHasSolid (filterTransparency img) y0 = true ∧
        (∀ y, y < y0 → rowHasSolid (filterTransparency img) y = false) ∧
        rowHasSolid (filterTransparency img) y1 = true ∧
        (∀ y, rowHasSolid (filterTransparency img) y = true →
          y < (filterTransparency img).height → y ≤ y1)) ∧
    ((process_and_save_image_static conv ck img).2.head? =
      some (StampLine.imgHeader
        (scale10 (process_and_save_image_static conv ck img).1.width)
        (scale10 (process_and_save_image_static conv ck img).1.height))) ∧
    ((process_and_save_image_static rgbConv ckWhite imgBorder).1.width = 1 ∧
      (process_and_save_image_static rgbConv ckWhite imgBorder).1.height = 1 ∧
      imgBorder.width = 3 ∧
      (process_and_save_image_static rgbConv ckWhite imgBorder).2.head? =
        some (StampLine.imgHeader (scale10 1) (scale10 1))) := by
  refine ⟨fun x y => rfl, ?_, ?_, ?_, by decide⟩
  · intro hcase
    unfold crop_to_solid_area
    rcases hcase with hc | hr
    · rw [hc]
    · rw [hr]
      rcases hsc : solidCols (filterTransparency img) with _ | ⟨x0, xs⟩
      · rfl
      · rfl
  · intro x0 xs y0 ys hsc hsr
    obtain ⟨hx0p, hx0lt, hx0min⟩ := filter_range_head_min hsc
    obtain ⟨hy0p, hy0lt, hy0min⟩ := filter_range_head_min hsr
    obtain ⟨x1, hx1last, hx1p, hx1lt, hx1max⟩ := filter_range_getLast_max hsc
    obtain ⟨y1, hy1last, hy1p, hy1lt, hy1max⟩ := filter_range_getLast_max hsr
    refine ⟨x1, y1, hx1last, hy1last, ?_, hx0p, hx0min, hx1p, hx1max,
      hy0p, hy0min, hy1p, hy1max⟩
    unfold crop_to_solid_area
    rw [hsc, hsr]
    simp only [hx1last, hy1last, Option.getD_some]
  · rw [process_and_save_image_static]
    rw [encodeStatic_eq]
    rfl

/-- Witness for C10 at a concrete image with a transparent border. -/
theorem static_pipeline_crop_spec_witness :
    ((solidCols (filterTransparency imgBorder) = [] ∨
        solidRows (filterTransparency imgBorder) = []) →
      crop_to_solid_area (filterTransparency imgBorder) =
        ⟨1, 1, fun _ _ => ⟨0, 0, 0, 0⟩⟩) ∧
    ((process_and_save_image_static rgbConv ckWhite imgBorder).2.head? =
      some (StampLine.imgHeader
        (scale10 (process_and_save_image_static rgbConv ckWhite imgBorder).1.width)
        (scale10 (process_and_save_image_static rgbConv ckWhite imgBorder).1.height))) :=
  ⟨((static_pipeline_crop_spec rgbConv ckWhite imgBorder).2.1),
    ((static_pipeline_crop_spec rgbConv ckWhite imgBorder).2.2.2.1)⟩

/-! ## Animation encoder (`process_and_save_gif`): frame deltas -/

/-- A frame pixel map as built by `process_and_save_gif`: a dict from
coordinates to color numbers, embedded as an association list; `-1`
means transparent. -/
abbrev PixelMap := List ((ℕ × ℕ) × ℤ)

/-- The dict read `map.get((x, y), -1)` of the diff loops. -/
def mapGet (m : PixelMap) (p : ℕ × ℕ) : ℤ := (m.lookup p).getD (-1)

/-- The coordinate union `set(prev.keys()) | set(cur.keys())`.  Python
set iteration order is unspecified; the embedding fixes the deduplicated
first-occurrence order, which no claim depends on. -/
def allPositions (prev cur : PixelMap) : List (ℕ × ℕ) :=
  (prev.map Prod.fst ++ cur.map Prod.fst).dedup

/-- The body of the per-frame diff loop of `process_and_save_gif`: a
coordinate of the union emits a line exactly when its value changed; the
code appends `(x, y, -1)` when the pixel became transparent and
`(x, y, current)` otherwise. -/
def emitFrameDiff (prev cur : PixelMap) (p : ℕ × ℕ) : Option ((ℕ × ℕ) × ℤ) :=
  let prevc := mapGet prev p
  let curc := mapGet cur p
  if curc ≠ prevc then
    if curc = -1 then some (p, -1) else some (p, curc)
  else none

/-- The per-frame diff loop of `process_and_save_gif` over the
coordinate union. -/
def frameDiffs (prev cur : PixelMap) : List ((ℕ × ℕ) × ℤ) :=
  (allPositions prev cur).filterMap (emitFrameDiff prev cur)

theorem emitFrameDiff_eq_some {prev cur : PixelMap} {a : ℕ × ℕ}
    {pr : (ℕ × ℕ) × ℤ} :
    emitFrameDiff prev cur a = some pr ↔
      mapGet cur a ≠ mapGet prev a ∧ pr = (a, mapGet cur a) := by
  simp only [emitFrameDiff]
  split_ifs with h1 h2
  · constructor
    · intro h
      cases h
      exact ⟨h1, by rw [h2]⟩
    · intro h
      rw [h.2, h2]
  · constructor
    · intro h
      cases h
      exact ⟨h1, rfl⟩
    · intro h
      rw [h.2]
  · constructor
    · intro h
      cases h
    · intro h
      exact absurd h.1 h1

theorem emitFrameDiff_eq_none {prev cur : PixelMap} {a : ℕ × ℕ} :
    emitFrameDiff prev cur a = none ↔ mapGet cur a = mapGet prev a := by
  simp only [emitFrameDiff]
  split_ifs with h1 h2
  · simp [h1]
  · simp [h1]
  · simp [not_not.mp h1]

theorem emitFrameDiff_isSome {prev cur : PixelMap} {a : ℕ × ℕ} :
    (emitFrameDiff prev cur a).isSome = true ↔
      mapGet cur a ≠ mapGet prev a := by
  cases h : emitFrameDiff prev cur a with
  | none =>
    have := emitFrameDiff_eq_none.mp h
    simp [this]
  | some pr =>
    have := (emitFrameDiff_eq_some.mp h).1
    simp [this]

/-- A frame block of frames.txt: the `frame,<n>[,<delay>]` header line
followed by the scaled diff lines (coordinates scaled by 0.1, no
Y-flip). -/
def writeFrameBlock (idx : ℕ) (delay : Option ℤ) (diffs : List ((ℕ × ℕ) × ℤ)) :
    List StampLine :=
  StampLine.frameHeader idx delay ::
    diffs.map (fun d => StampLine.point (scale10 d.1.1) (scale10 d.1.2) d.2)

theorem mapGet_ne_default_mem {m : PixelMap} {p : ℕ × ℕ}
    (h : mapGet m p ≠ -1) : p ∈ m.map Prod.fst := by
  induction m with
  | nil => simp [mapGet, List.lookup] at h
  | cons e t ih =>
    obtain ⟨k, v⟩ := e
    simp only [mapGet, List.lookup] at h
    by_cases hkp : p == k
    · simp only [List.map_cons, List.mem_cons]
      exact Or.inl (eq_of_beq hkp)
    · rw [Bool.not_eq_true] at hkp
      rw [hkp] at h
      simp only [List.map_cons, List.mem_cons]
      exact Or.inr (ih h)

theorem countP_key_filterMap {β : Type}
    (f : (ℕ × ℕ) → Option ((ℕ × ℕ) × β))
    (hf : ∀ a pr, f a = some pr → pr.1 = a) (p : ℕ × ℕ) :
    ∀ (l : List (ℕ × ℕ)), l.Nodup →
      (l.filterMap f).countP (fun d => d.1 = p) =
        if p ∈ l ∧ (f p).isSome then 1 else 0
  | [], _ => by simp
  | a :: t, hnd => by
    have hat : a ∉ t := (List.nodup_cons.mp hnd).1
    have hnt : t.Nodup := (List.nodup_cons.mp hnd).2
    have iht := countP_key_filterMap f hf p t hnt
    rw [List.filterMap_cons]
    cases hfa : f a with
    | none =>
      rw [iht]
      by_cases hpa : p = a
      · subst hpa
        simp [hfa, hat]
      · simp [List.mem_cons, hpa]
    | some pr =>
      have hpra : pr.1 = a := hf a pr hfa
      rw [List.countP_cons, iht]
      by_cases hpa : p = a
      · subst hpa
        have : p ∉ t := hat
        simp [hpra, hfa, this]
      · have : ¬ pr.1 = p := by rw [hpra]; exact fun hc => hpa hc.symm
        simp [this, List.mem_cons, hpa]

theorem filterMap_single {α β : Type} [DecidableEq α] :
    ∀ (l : List α), l.Nodup → ∀ (f : α → Option β) (a0 : α) (b0 : β),
      a0 ∈ l → f a0 = some b0 → (∀ a, a ≠ a0 → f a = none) →
      l.filterMap f = [b0]
  | [], _, _, _, _, h, _, _ => by simp at h
  | a :: t, hnd, f, a0, b0, hmem, hf0, hrest => by
    have hat : a ∉ t := (List.nodup_cons.mp hnd).1
    have hnt : t.Nodup := (List.nodup_cons.mp hnd).2
    rw [List.filterMap_cons]
    by_cases ha : a = a0
    · subst ha
      rw [hf0]
      have : t.filterMap f = [] := by
        rw [List.filterMap_eq_nil_iff]
        intro x hx
        exact hrest x (fun hc => hat (hc ▸ hx))
      rw [this]
    · rw [hrest a ha]
      have hmt : a0 ∈ t := by
        rcases List.mem_cons.mp hmem with hc | hc
        · exact absurd hc.symm ha
        · exact hc
      exact filterMap_single t hnt f a0 b0 hmt hf0 hrest

/-- C3: the per-frame delta block contains exactly one line per
coordinate whose value differs between the current frame's map and the
immediately preceding frame's map over the union of their coordinates,
each such line carrying the current value (`-1` for a newly transparent
pixel), and no line for unchanged coordinates; identical consecutive
maps yield a block holding the `frame,<n>` header only, and a
single-coordinate change yields exactly one delta line. -/
theorem frame_delta_minimality (prev cur : PixelMap) (idx : ℕ) (delay : Option ℤ) :
    (∀ p : ℕ × ℕ, (frameDiffs prev cur).countP (fun d => d.1 = p) =
      if mapGet cur p ≠ mapGet prev p then 1 else 0) ∧
    (∀ p d, (p, d) ∈ frameDiffs prev cur →
      d = mapGet cur p ∧ mapGet cur p ≠ mapGet prev p) ∧
    ((∀ p, mapGet prev p = mapGet cur p) →
      writeFrameBlock idx delay (frameDiffs prev cur) =
        [StampLine.frameHeader idx delay]) ∧
    (∀ p0, mapGet cur p0 ≠ mapGet prev p0 →
      (∀ p, p ≠ p0 → mapGet cur p = mapGet prev p) →
      frameDiffs prev cur = [(p0, mapGet cur p0)]) := by
  have hf : ∀ a pr, emitFrameDiff prev cur a = some pr → pr.1 = a := by
    intro a pr hpr
    rw [(emitFrameDiff_eq_some.mp hpr).2]
  have hchmem : ∀ p : ℕ × ℕ, mapGet cur p ≠ mapGet prev p →
      p ∈ allPositions prev cur := by
    intro p hch
    rw [allPositions, List.mem_dedup, List.mem_append]
    by_cases hc : mapGet cur p = -1
    · have hp : mapGet prev p ≠ -1 := fun hc2 => hch (by rw [hc, hc2])
      exact Or.inl (mapGet_ne_default_mem hp)
    · exact Or.inr (mapGet_ne_default_mem hc)
  have hnd : (allPositions prev cur).Nodup := List.nodup_dedup _
  refine ⟨?_, ?_, ?_, ?_⟩
  · intro p
    rw [frameDiffs, countP_key_filterMap _ hf p _ hnd]
    by_cases hch : mapGet cur p ≠ mapGet prev p
    · rw [if_pos hch, if_pos ⟨hchmem p hch, emitFrameDiff_isSome.mpr hch⟩]
    · rw [if_neg hch, if_neg]
      intro hc
      exact hch (emitFrameDiff_isSome.mp hc.2)
  · intro p d hmem
    rw [frameDiffs] at hmem
    obtain ⟨a, -, hfa⟩ := List.mem_filterMap.mp hmem
    obtain ⟨hch, hpr⟩ := emitFrameDiff_eq_some.mp hfa
    have h1 : p = a := congrArg Prod.fst hpr
    subst h1
    exact ⟨congrArg Prod.snd hpr, hch⟩
  · intro hall
    rw [writeFrameBlock, frameDiffs]
    have hnil : (allPositions prev cur).filterMap (emitFrameDiff prev cur) = [] := by
      rw [List.filterMap_eq_nil_iff]
      intro a _
      exact emitFrameDiff_eq_none.mpr (hall a).symm
    rw [hnil]
    rfl
  · intro p0 hch hrest
    rw [frameDiffs]
    have hfp0 : emitFrameDiff prev cur p0 = some (p0, mapGet cur p0) :=
      emitFrameDiff_eq_some.mpr ⟨hch, rfl⟩
    apply filterMap_single _ hnd _ p0 _ (hchmem p0 hch) hfp0
    intro a ha
    exact emitFrameDiff_eq_none.mpr (hrest a ha)

/-- A one-pixel previous-frame map holding color 1. -/
def prevOne : PixelMap := [((0, 0), 1)]

/-- A one-pixel current-frame map holding color 2. -/
def curOne : PixelMap := [((0, 0), 2)]

/-- Witness for C3: equal maps give a header-only block, and a
single-pixel change gives exactly one delta line. -/
theorem frame_delta_minimality_witness :
    writeFrameBlock 1 none (frameDiffs prevOne prevOne) =
      [StampLine.frameHeader 1 none] ∧
    frameDiffs prevOne curOne = [((0, 0), 2)] := by
  constructor
  · exact (frame_delta_minimality prevOne prevOne 1 none).2.2.1 (fun p => rfl)
  · have := (frame_delta_minimality prevOne curOne 1 none).2.2.2 (0, 0)
      (by decide)
      (fun p hp => by
        have hbeq : (p == ((0, 0) : ℕ × ℕ)) = false := beq_eq_false_iff_ne.mpr hp
        simp only [mapGet, curOne, prevOne, List.lookup, hbeq])
    simpa using this

/-! ## Animation encoder: the loop-closing delta -/

/-- The loop-closing diff of `process_and_save_gif`, comparing frame 1's
stored map (`first_frame_pixels`) with the last frame's map: for a
changed coordinate the code appends `first_color_num` when the first
frame misses the pixel (that value is `-1`), appends `-1` when the last
frame's value is `-1`, and appends `first_color_num` otherwise. -/
def closingDiffs (first last : PixelMap) : List ((ℕ × ℕ) × ℤ) :=
  (allPositions first last).filterMap (fun p =>
    let firstc := mapGet first p
    let lastc := mapGet last p
    if firstc ≠ lastc then
      if firstc = -1 then some (p, firstc)
      else if lastc = -1 then some (p, -1)
      else some (p, firstc)
    else none)

/-- Replaying a delta list onto a frame state (consumer semantics: a
line `(x, y, n)` sets the pixel's state to `n`, with `-1` meaning
transparent). -/
def applyDeltas (m : ℕ × ℕ → ℤ) (ds : List ((ℕ × ℕ) × ℤ)) : ℕ × ℕ → ℤ :=
  ds.foldl (fun acc d => fun p => if p = d.1 then d.2 else acc p) m

/-- Frame 1's map for the failing animation: the single pixel is
visible with color 0. -/
def firstMapPt : PixelMap := [((0, 0), 0)]

/-- The last frame's map for the failing animation: the single pixel is
transparent. -/
def lastMapPt : PixelMap := [((0, 0), -1)]

/-- C4 fails on the code: for a 1x1 animation whose pixel is visible
with color 0 in frame 1 and transparent in the last frame, the closing
delta emits `(0, 0, -1)` instead of `(0, 0, 0)`, so replaying it onto
the last frame's map leaves the pixel transparent and does not
reproduce frame 1's map. -/
theorem closing_delta_replay_fails :
    closingDiffs firstMapPt lastMapPt = [((0, 0), -1)] ∧
    applyDeltas (mapGet lastMapPt) (closingDiffs firstMapPt lastMapPt) (0, 0) = -1 ∧
    mapGet firstMapPt (0, 0) = 0 ∧
    applyDeltas (mapGet lastMapPt) (closingDiffs firstMapPt lastMapPt) (0, 0) ≠
      mapGet firstMapPt (0, 0) := by
  refine ⟨by decide, by decide, by decide, by decide⟩

/-! ## Background-remover dynamic threshold (`calculate_dynamic_threshold`) -/

/-- Python-style `max(a, b)`. -/
def pymax (a b : ℚ) : ℚ := if a ≤ b then b else a

/-- Python-style `min(a, b)`. -/
def pymin (a b : ℚ) : ℚ := if a ≤ b then a else b

/-- Sum of a list of rationals, the numerator of `np.mean`. -/
def listSum : List ℚ → ℚ
  | [] => mkRat 0 1
  | x :: xs => x + listSum xs

/-- The mask statistic `np.mean(mask)` (mask values are floats; the
embedding uses exact rationals). -/
def npMean (l : List ℚ) : ℚ := listSum l / mkRat l.length 1

/-- The mask statistic `np.max(mask)` (zero on an empty mask, which
numpy rejects and no caller produces). -/
def npMax : List ℚ → ℚ
  | [] => mkRat 0 1
  | x :: xs => xs.foldl pymax x

/-- Embedding of `calculate_dynamic_threshold(mask)` from
`remove_background`:
`calculated = max(0.01, min(mean * 0.5, max * 0.5))` followed by
`adjusted = max(0.01, calculated * 0.9 - 0.01) / 42`. -/
def calculate_dynamic_threshold (mask : List ℚ) : ℚ :=
  let mean_value := npMean mask
  let max_value := npMax mask
  let calculated_threshold :=
    pymax (mkRat 1 100) (pymin (mean_value * mkRat 1 2) (max_value * mkRat 1 2))
  pymax (mkRat 1 100) (calculated_threshold * mkRat 9 10 - mkRat 1 100) / mkRat 42 1

/-- The threshold formula exactly as claim C9 states it (from the spec
words): `clamp(mean*0.5, 0.01, max*0.5)` scaled by `0.9 / 42`, i.e.
`max(0.01, min(mean*0.5, max*0.5)) * 0.9 / 42`. -/
def specDynamicThreshold (mask : List ℚ) : ℚ :=
  pymax (mkRat 1 100) (pymin (npMean mask * mkRat 1 2) (npMax mask * mkRat 1 2))
    * mkRat 9 10 / mkRat 42 1

theorem le_pymax_left (a b : ℚ) : a ≤ pymax a b := by
  unfold pymax
  split_ifs with h
  · exact h
  · exact le_refl a

/-- Counterexample to C9: on the all-ones mask `[1.0]` the code computes
`max(0.01, 0.5*0.9 - 0.01)/42 = 0.44/42 = 11/1050`, while the claim's
formula gives `0.5*0.9/42 = 0.45/42 = 3/280`; the two disagree. -/
theorem dynamic_threshold_formula_mismatch :
    calculate_dynamic_threshold [mkRat 1 1] = mkRat 11 1050 ∧
    specDynamicThreshold [mkRat 1 1] = mkRat 3 280 ∧
    calculate_dynamic_threshold [mkRat 1 1] ≠ specDynamicThreshold [mkRat 1 1] := by
  have h1 : calculate_dynamic_threshold [mkRat 1 1] = mkRat 11 1050 := by
    norm_num [calculate_dynamic_threshold, npMean, npMax, listSum, pymax, pymin,
      Rat.mkRat_eq_divInt, Rat.divInt_eq_div]
  have h2 : specDynamicThreshold [mkRat 1 1] = mkRat 3 280 := by
    norm_num [specDynamicThreshold, npMean, npMax, listSum, pymax, pymin,
      Rat.mkRat_eq_divInt, Rat.divInt_eq_div]
  refine ⟨h1, h2, ?_⟩
  rw [h1, h2]
  intro hc
  rw [Rat.mkRat_eq_divInt, Rat.mkRat_eq_divInt, Rat.divInt_eq_div,
    Rat.divInt_eq_div] at hc
  norm_num at hc

/-- C9 (amended): the dynamic threshold equals
`max(0.01, clamp(mean*0.5, 0.01, max*0.5) * 0.9 - 0.01) / 42` — the
claim's formula corrected by the inner `- 0.01` and the outer
`max(0.01, .)` that the code applies before dividing by 42 — and is
therefore always at least `0.01 / 42`. -/
theorem dynamic_threshold_amended (mask : List ℚ) :
    calculate_dynamic_threshold mask =
      pymax (mkRat 1 100)
        (pymax (mkRat 1 100)
            (pymin (npMean mask * mkRat 1 2) (npMax mask * mkRat 1 2))
          * mkRat 9 10 - mkRat 1 100) / mkRat 42 1 ∧
    mkRat 1 4200 ≤ calculate_dynamic_threshold mask := by
  refine ⟨rfl, ?_⟩
  have hbase : mkRat 1 4200 = mkRat 1 100 / mkRat 42 1 := by
    rw [Rat.mkRat_eq_divInt, Rat.mkRat_eq_divInt, Rat.mkRat_eq_divInt,
      Rat.divInt_eq_div, Rat.divInt_eq_div, Rat.divInt_eq_div]
    norm_num
  have h42 : (0 : ℚ) < mkRat 42 1 := by
    rw [Rat.mkRat_one]
    norm_num
  have hle : mkRat 1 100 ≤
      pymax (mkRat 1 100)
        (pymax (mkRat 1 100)
            (pymin (npMean mask * mkRat 1 2) (npMax mask * mkRat 1 2))
          * mkRat 9 10 - mkRat 1 100) := le_pymax_left _ _
  rw [hbase]
  show mkRat 1 100 / mkRat 42 1 ≤
      pymax (mkRat 1 100)
        (pymax (mkRat 1 100)
            (pymin (npMean mask * mkRat 1 2) (npMax mask * mkRat 1 2))
          * mkRat 9 10 - mkRat 1 100) / mkRat 42 1
  rw [div_eq_mul_inv, div_eq_mul_inv]
  exact mul_le_mul_of_nonneg_right hle (inv_nonneg.mpr h42.le)

/-! ## Dithering engine (`optimized_error_diffusion_dithering` and the
registered variants) -/

/-- A mutable pixel buffer during a dithering run. -/
abbrev Buf := ℕ → ℕ → Pixel

/-- A diffusion kernel: `(dx, dy, coefficient)` offsets. -/
abbrev Kernel := List (ℤ × ℤ × ℚ)

/-- The Atkinson kernel of `atkinson_dithering` (weights 1/8, sum 6/8). -/
def atkinsonMatrix : Kernel :=
  [(1, 0, mkRat 1 8), (2, 0, mkRat 1 8),
   (-1, 1, mkRat 1 8), (0, 1, mkRat 1 8), (1, 1, mkRat 1 8),
   (0, 2, mkRat 1 8)]

/-- The Floyd-Steinberg kernel of `floyd_steinberg_dithering`. -/
def floydSteinbergMatrix : Kernel :=
  [(1, 0, mkRat 7 16),
   (-1, 1, mkRat 3 16), (0, 1, mkRat 5 16), (1, 1, mkRat 1 16)]

/-- The Stucki kernel of `stucki_dithering` (weights /42). -/
def stuckiMatrix : Kernel :=
  [(1, 0, mkRat 8 42), (2, 0, mkRat 4 42),
   (-2, 1, mkRat 2 42), (-1, 1, mkRat 4 42), (0, 1, mkRat 8 42),
   (1, 1, mkRat 4 42), (2, 1, mkRat 2 42),
   (-2, 2, mkRat 1 42), (-1, 2, mkRat 2 42), (0, 2, mkRat 4 42),
   (1, 2, mkRat 2 42), (2, 2, mkRat 1 42)]

/-- The Jarvis-Judice-Ninke kernel of `jarvis_judice_ninke_dithering`
(weights /48). -/
def jarvisMatrix : Kernel :=
  [(1, 0, mkRat 7 48), (2, 0, mkRat 5 48),
   (-2, 1, mkRat 3 48), (-1, 1, mkRat 5 48), (0, 1, mkRat 7 48),
   (1, 1, mkRat 5 48), (2, 1, mkRat 3 48),
   (-2, 2, mkRat 1 48), (-1, 2, mkRat 3 48), (0, 2, mkRat 5 48),
   (1, 2, mkRat 3 48), (2, 2, mkRat 1 48)]

/-- The two-row Sierra kernel of `sierra2_dithering` (weights /16). -/
def sierraMatrix : Kernel :=
  [(1, 0, mkRat 4 16), (2, 0, mkRat 3 16),
   (-2, 1, mkRat 1 16), (-1, 1, mkRat 2 16), (0, 1, mkRat 3 16),
   (1, 1, mkRat 2 16), (2, 1, mkRat 1 16)]

/-- The alpha mask `alpha_mask = (alpha_channel > 0)` computed once from
the input image (the alpha channel is never written, so the mask stays
valid for the whole run). -/
def alphaMask (img : Image) (x y : ℕ) : Bool := 0 < (img.pix x y).a

/-- Write the RGB channels of one buffer pixel, keeping its alpha (the
loops assign only channels 0..2). -/
def writeRGB (buf : Buf) (x y r g b : ℕ) : Buf :=
  fun x2 y2 => if x2 = x ∧ y2 = y then ⟨r, g, b, (buf x y).a⟩ else buf x2 y2

/-- The channel write `int(min(max(val, 0), 255))`: clamp to [0, 255]
then truncate (truncation toward zero equals floor on the clamped
nonnegative value). -/
def clipToByte (v : ℚ) : ℕ :=
  Int.toNat ⌊pymin (pymax v (mkRat 0 1)) (mkRat 255 1)⌋

/-- One kernel tap of the diffusion loop: add `quant_error * coeff` to
the neighbor's channels and clip, provided the neighbor is in bounds and
not alpha-frozen (`alpha_mask[ny, nx]`). -/
def diffuseTo (mask : ℕ → ℕ → Bool) (w h : ℕ) (buf : Buf) (nx ny : ℤ)
    (qe : ℚ × ℚ × ℚ) (coeff : ℚ) : Buf :=
  if 0 ≤ nx ∧ nx < w ∧ 0 ≤ ny ∧ ny < h ∧ mask nx.toNat ny.toNat then
    let neighbor := buf nx.toNat ny.toNat
    writeRGB buf nx.toNat ny.toNat
      (clipToByte (mkRat neighbor.r 1 + qe.1 * coeff))
      (clipToByte (mkRat neighbor.g 1 + qe.2.1 * coeff))
      (clipToByte (mkRat neighbor.b 1 + qe.2.2 * coeff))
  else buf

/-- The per-pixel body of `optimized_error_diffusion_dithering`: skip
alpha-frozen pixels, quantize to the nearest palette color, write the
quantized RGB, then diffuse the strength-scaled quantization error to
the kernel offsets.  `kernelAt` selects the kernel per pixel (constant
for the plain variants, saliency-driven for `hybrid_dithering`).  An
empty palette makes `np.argmin` raise, aborting the run. -/
def ditherStep (conv : Conv) (ck : ColorKey) (strength : ℚ)
    (kernelAt : ℕ → ℕ → Kernel) (mask : ℕ → ℕ → Bool) (w h : ℕ)
    (buf : Buf) (pos : ℕ × ℕ) : Except String Buf :=
  if mask pos.1 pos.2 = false then .ok buf
  else
    let old := buf pos.1 pos.2
    match argminIdx (palDists conv ck old.rgb) with
    | none => .error "argmin of an empty sequence"
    | some i =>
      match (palVals ck)[i]? with
      | none => .error "palette index out of range"
      | some new =>
        let qe : ℚ × ℚ × ℚ :=
          ((mkRat old.r 1 - mkRat new.1 1) * strength,
           (mkRat old.g 1 - mkRat new.2.1 1) * strength,
           (mkRat old.b 1 - mkRat new.2.2 1) * strength)
        let buf1 := writeRGB buf pos.1 pos.2 new.1 new.2.1 new.2.2
        .ok ((kernelAt pos.1 pos.2).foldl
          (fun b k =>
            diffuseTo mask w h b ((pos.1 : ℤ) + k.1) ((pos.2 : ℤ) + k.2.1) qe k.2.2)
          buf1)

/-- The raster scan positions `for y in range(height): for x in
range(width)` (row-major, top-to-bottom, left-to-right). -/
def rowMajorPositions (w h : ℕ) : List (ℕ × ℕ) :=
  (List.range h).flatMap (fun y => (List.range w).map (fun x => (x, y)))

/-- Run the dither loop over a position list, threading the buffer and
propagating the first raised error. -/
def runDither (conv : Conv) (ck : ColorKey) (strength : ℚ)
    (kernelAt : ℕ → ℕ → Kernel) (mask : ℕ → ℕ → Bool) (w h : ℕ) :
    List (ℕ × ℕ) → Buf → Except String Buf
  | [], buf => .ok buf
  | p :: ps, buf =>
    match ditherStep conv ck strength kernelAt mask w h buf p with
    | .error e => .error e
    | .ok b2 => runDither conv ck strength kernelAt mask w h ps b2

/-- Embedding of `optimized_error_diffusion_dithering(img, color_key,
strength, diffusion_matrix)`, generalized over the per-pixel kernel
choice so that it also instantiates to `hybrid_dithering`. -/
def optimized_error_diffusion_dithering (conv : Conv) (ck : ColorKey)
    (strength : ℚ) (kernelAt : ℕ → ℕ → Kernel) (img : Image) :
    Except String Image :=
  (runDither conv ck strength kernelAt (alphaMask img) img.width img.height
      (rowMajorPositions img.width img.height) img.pix).map
    (fun buf => ⟨img.width, img.height, buf⟩)

/-- The 8x8 Bayer threshold matrix of `ordered_dithering` (values /64
after normalization). -/
def bayer8 : List (List ℕ) :=
  [[0, 32, 8, 40, 2, 34, 10, 42],
   [48, 16, 56, 24, 50, 18, 58, 26],
   [12, 44, 4, 36, 14, 46, 6, 38],
   [60, 28, 52, 20, 62, 30, 54, 22],
   [3, 35, 11, 43, 1, 33, 9, 41],
   [51, 19, 59, 27, 49, 17, 57, 25],
   [15, 47, 7, 39, 13, 45, 5, 37],
   [63, 31, 55, 23, 61, 29, 53, 21]]

/-- The tiled Bayer threshold `tiled_bayer[y, x] = bayer_8x8[y % 8][x % 8]`. -/
def bayerAt (x y : ℕ) : ℚ :=
  mkRat (((bayer8[y % 8]?).getD []
      |>.get? (x % 8)).getD 0) 64

/-- The per-pixel loop of `ordered_dithering` in RGB color-space mode
(`use_lab == False`): skip alpha-frozen pixels, compare the pixel's
brightness `(R+G+B)/765` against the tiled Bayer threshold, scale the
channels by one minus or plus `0.3*strength`, clip, cast to bytes, then write the
nearest palette color.  No error is carried between pixels. -/
def runOrdered (conv : Conv) (ck : ColorKey) (strength : ℚ) :
    List (ℕ × ℕ) → Buf → Except String Buf
  | [], buf => .ok buf
  | (x, y) :: ps, buf =>
    let p := buf x y
    if p.a = 0 then runOrdered conv ck strength ps buf
    else
      let brightness := mkRat (p.r + p.g + p.b) 765
      let adj := mkRat 3 10 * strength
      let factor :=
        if brightness < bayerAt x y then mkRat 1 1 - adj else mkRat 1 1 + adj
      let adjusted :=
        (clipToByte (mkRat p.r 1 * factor), clipToByte (mkRat p.g 1 * factor),
         clipToByte (mkRat p.b 1 * factor))
      match argminIdx (palDists conv ck adjusted) with
      | none => .error "argmin of an empty sequence"
      | some i =>
        match (palVals ck)[i]? with
        | none => .error "palette index out of range"
        | some v =>
          runOrdered conv ck strength ps (writeRGB buf x y v.1 v.2.1 v.2.2)

/-- Embedding of `ordered_dithering` (Pattern Dither), RGB branch. -/
def ordered_dithering (conv : Conv) (ck : ColorKey) (strength : ℚ)
    (img : Image) : Except String Image :=
  (runOrdered conv ck strength (rowMajorPositions img.width img.height)
      img.pix).map (fun buf => ⟨img.width, img.height, buf⟩)

/-- The per-pixel loop of `random_dithering` in RGB color-space mode
(`use_lab == False`): skip pixels with alpha 0, add the next Gaussian
draws (standard draws scaled by `noise_std = 32 * strength`) to the
channels, clip and truncate, match to the nearest palette color, and
write `color_key[new_pixel_num]` keeping the original alpha.  The
ambient `np.random` stream is the explicit `noise` parameter indexed by
the number of draws consumed; the parameter set of the method holds only
`strength`. -/
def runRandom (ck : ColorKey) (strength : ℚ) (noise : ℕ → ℚ × ℚ × ℚ) :
    List (ℕ × ℕ) → Buf → ℕ → Except String Buf
  | [], buf, _ => .ok buf
  | (x, y) :: ps, buf, k =>
    let p := buf x y
    if p.a = 0 then runRandom ck strength noise ps buf k
    else
      let z := noise k
      let noisy :=
        (clipToByte (mkRat p.r 1 + mkRat 32 1 * strength * z.1),
         clipToByte (mkRat p.g 1 + mkRat 32 1 * strength * z.2.1),
         clipToByte (mkRat p.b 1 + mkRat 32 1 * strength * z.2.2))
      match find_closest_color rgbConv ck noisy with
      | none => .error "argmin of an empty sequence"
      | some n =>
        match ck.lookup n with
        | none => .error "palette key error"
        | some v =>
          runRandom ck strength noise ps (writeRGB buf x y v.1 v.2.1 v.2.2) (k + 1)

/-- Embedding of `random_dithering` (Random Dither), RGB branch. -/
def random_dithering (ck : ColorKey) (strength : ℚ) (noise : ℕ → ℚ × ℚ × ℚ)
    (img : Image) : Except String Image :=
  (runRandom ck strength noise (rowMajorPositions img.width img.height)
      img.pix 0).map (fun buf => ⟨img.width, img.height, buf⟩)

/-- The registered processing modes of the core pipeline (the runtime
string-keyed registry becomes a closed enumeration; the K-Means method
delegates to the external sklearn library and is outside the embedded
core).  An unknown mode falls back to color matching in the source, so
the fallback coincides with `colorMatch`. -/
inductive ProcessMode where
  | colorMatch
  | atkinson
  | floyd
  | stucki
  | jarvis
  | sierra
  | hybridMode
  | patternMode
  | randomMode
deriving DecidableEq

/-- Embedding of the `process_image` dispatch: select the registered
processing function for the mode and run it.  `saliency` is the
`saliency > 0.5` map of `hybrid_dithering` (an external filter chain);
`noise` is the ambient RNG stream of `random_dithering`. -/
def process_image (conv : Conv) (mode : ProcessMode) (ck : ColorKey)
    (strength : ℚ) (saliency : ℕ → ℕ → Bool) (noise : ℕ → ℚ × ℚ × ℚ)
    (img : Image) : Except String Image :=
  match mode with
  | .colorMatch =>
    match color_matching conv ck img with
    | some o => .ok o
    | none => .error "vectorized distance broadcast failed"
  | .atkinson =>
    optimized_error_diffusion_dithering conv ck strength
      (fun _ _ => atkinsonMatrix) img
  | .floyd =>
    optimized_error_diffusion_dithering conv ck strength
      (fun _ _ => floydSteinbergMatrix) img
  | .stucki =>
    optimized_error_diffusion_dithering conv ck strength
      (fun _ _ => stuckiMatrix) img
  | .jarvis =>
    optimized_error_diffusion_dithering conv ck strength
      (fun _ _ => jarvisMatrix) img
  | .sierra =>
    optimized_error_diffusion_dithering conv ck strength
      (fun _ _ => sierraMatrix) img
  | .hybridMode =>
    optimized_error_diffusion_dithering conv ck strength
      (fun x y => if saliency x y then floydSteinbergMatrix else atkinsonMatrix)
      img
  | .patternMode => ordered_dithering conv ck strength img
  | .randomMode => random_dithering ck strength noise img

/-- Whether a run finished without a raised error. -/
def exceptOk {ε α : Type} : Except ε α → Bool
  | .ok _ => true
  | .error _ => false

theorem writeRGB_alpha (buf : Buf) (x y r g b x2 y2 : ℕ) :
    ((writeRGB buf x y r g b) x2 y2).a = (buf x2 y2).a := by
  unfold writeRGB
  split_ifs with h
  · obtain ⟨rfl, rfl⟩ := h
    rfl
  · rfl

theorem writeRGB_other (buf : Buf) (x y r g b x2 y2 : ℕ)
    (h : ¬(x2 = x ∧ y2 = y)) : (writeRGB buf x y r g b) x2 y2 = buf x2 y2 := by
  unfold writeRGB
  rw [if_neg h]

theorem writeRGB_self (buf : Buf) (x y r g b : ℕ) :
    (writeRGB buf x y r g b) x y = ⟨r, g, b, (buf x y).a⟩ := by
  unfold writeRGB
  rw [if_pos ⟨rfl, rfl⟩]

theorem diffuseTo_alpha (mask : ℕ → ℕ → Bool) (w h : ℕ) (buf : Buf)
    (nx ny : ℤ) (qe : ℚ × ℚ × ℚ) (c : ℚ) (x2 y2 : ℕ) :
    ((diffuseTo mask w h buf nx ny qe c) x2 y2).a = (buf x2 y2).a := by
  unfold diffuseTo
  split_ifs with hg
  · exact writeRGB_alpha buf nx.toNat ny.toNat _ _ _ x2 y2
  · rfl

theorem diffuseTo_frozen (mask : ℕ → ℕ → Bool) (w h : ℕ) (buf : Buf)
    (nx ny : ℤ) (qe : ℚ × ℚ × ℚ) (c : ℚ) (x2 y2 : ℕ)
    (hm : mask x2 y2 = false) :
    (diffuseTo mask w h buf nx ny qe c) x2 y2 = buf x2 y2 := by
  unfold diffuseTo
  split_ifs with hg
  · apply writeRGB_other
    intro hc
    obtain ⟨rfl, rfl⟩ := hc
    rw [hm] at hg
    simp at hg
  · rfl

theorem foldl_diffuse_alpha (mask : ℕ → ℕ → Bool) (w h : ℕ)
    (qe : ℚ × ℚ × ℚ) (px py : ℕ) :
    ∀ (ks : Kernel) (buf : Buf) (x2 y2 : ℕ),
      ((ks.foldl
        (fun b k => diffuseTo mask w h b ((px : ℤ) + k.1) ((py : ℤ) + k.2.1) qe k.2.2)
        buf) x2 y2).a = (buf x2 y2).a
  | [], _, _, _ => rfl
  | k :: ks, buf, x2, y2 => by
    rw [List.foldl_cons,
      foldl_diffuse_alpha mask w h qe px py ks _ x2 y2, diffuseTo_alpha]

theorem foldl_diffuse_frozen (mask : ℕ → ℕ → Bool) (w h : ℕ)
    (qe : ℚ × ℚ × ℚ) (px py : ℕ) :
    ∀ (ks : Kernel) (buf : Buf) (x2 y2 : ℕ), mask x2 y2 = false →
      (ks.foldl
        (fun b k => diffuseTo mask w h b ((px : ℤ) + k.1) ((py : ℤ) + k.2.1) qe k.2.2)
        buf) x2 y2 = buf x2 y2
  | [], _, _, _, _ => rfl
  | k :: ks, buf, x2, y2, hm => by
    rw [List.foldl_cons,
      foldl_diffuse_frozen mask w h qe px py ks _ x2 y2 hm,
      diffuseTo_frozen _ _ _ _ _ _ _ _ _ _ hm]

theorem ditherStep_alpha {conv : Conv} {ck : ColorKey} {strength : ℚ}
    {kernelAt : ℕ → ℕ → Kernel} {mask : ℕ → ℕ → Bool} {w h : ℕ}
    {buf : Buf} {pos : ℕ × ℕ} {b2 : Buf}
    (hstep : ditherStep conv ck strength kernelAt mask w h buf pos = .ok b2) :
    ∀ x2 y2, (b2 x2 y2).a = (buf x2 y2).a := by
  intro x2 y2
  simp only [ditherStep] at hstep
  split at hstep
  · cases hstep
    rfl
  · split at hstep
    · cases hstep
    · split at hstep
      · cases hstep
      · cases hstep
        rw [foldl_diffuse_alpha, writeRGB_alpha]

theorem ditherStep_frozen {conv : Conv} {ck : ColorKey} {strength : ℚ}
    {kernelAt : ℕ → ℕ → Kernel} {mask : ℕ → ℕ → Bool} {w h : ℕ}
    {buf : Buf} {pos : ℕ × ℕ} {b2 : Buf}
    (hstep : ditherStep conv ck strength kernelAt mask w h buf pos = .ok b2) :
    ∀ x2 y2, mask x2 y2 = false → b2 x2 y2 = buf x2 y2 := by
  intro x2 y2 hm
  simp only [ditherStep] at hstep
  split at hstep
  · cases hstep
    rfl
  · rename_i hmask
    split at hstep
    · cases hstep
    · split at hstep
      · cases hstep
      · cases hstep
        rw [foldl_diffuse_frozen _ _ _ _ _ _ _ _ _ _ hm]
        apply writeRGB_other
        intro hc
        obtain ⟨rfl, rfl⟩ := hc
        exact hmask hm

theorem argminIdx_lt {l : List ℤ} {i : ℕ} (h : argminIdx l = some i) :
    i < l.length := by
  unfold argminIdx at h
  cases ha : argminAux l with
  | none =>
    rw [ha] at h
    cases h
  | some pr =>
    obtain ⟨j, m⟩ := pr
    rw [ha] at h
    cases h
    exact argminAux_idx_lt ha

theorem ditherStep_ok (conv : Conv) {ck : ColorKey} (hck : ck ≠ [])
    (strength : ℚ) (kernelAt : ℕ → ℕ → Kernel) (mask : ℕ → ℕ → Bool)
    (w h : ℕ) (buf : Buf) (pos : ℕ × ℕ) :
    ∃ b2, ditherStep conv ck strength kernelAt mask w h buf pos = .ok b2 := by
  cases hstep : ditherStep conv ck strength kernelAt mask w h buf pos with
  | ok b2 => exact ⟨b2, rfl⟩
  | error e =>
    exfalso
    simp only [ditherStep] at hstep
    split at hstep
    · cases hstep
    · split at hstep
      · rename_i harg
        have hd : palDists conv ck (buf pos.1 pos.2).rgb ≠ [] := by
          simp [palDists, palVals, hck]
        obtain ⟨i, m, him⟩ := argminAux_isSome hd
        rw [argminIdx, him] at harg
        cases harg
      · rename_i i harg
        split at hstep
        · rename_i hv
          have hlt : i < (palDists conv ck (buf pos.1 pos.2).rgb).length :=
            argminIdx_lt harg
          have hlen : (palDists conv ck (buf pos.1 pos.2).rgb).length =
              (palVals ck).length := by
            simp [palDists]
          rw [List.getElem?_eq_none_iff] at hv
          omega
        · cases hstep

theorem runDither_ok (conv : Conv) {ck : ColorKey} (hck : ck ≠ [])
    (strength : ℚ) (kernelAt : ℕ → ℕ → Kernel) (mask : ℕ → ℕ → Bool)
    (w h : ℕ) :
    ∀ (ps : List (ℕ × ℕ)) (buf : Buf),
      ∃ out, runDither conv ck strength kernelAt mask w h ps buf = .ok out
  | [], buf => ⟨buf, rfl⟩
  | p :: ps, buf => by
    obtain ⟨b2, hb2⟩ := ditherStep_ok conv hck strength kernelAt mask w h buf p
    obtain ⟨out, hout⟩ := runDither_ok conv hck strength kernelAt mask w h ps b2
    refine ⟨out, ?_⟩
    simp only [runDither, hb2]
    exact hout

theorem runDither_alpha {conv : Conv} {ck : ColorKey} {strength : ℚ}
    {kernelAt : ℕ → ℕ → Kernel} {mask : ℕ → ℕ → Bool} {w h : ℕ} :
    ∀ {ps : List (ℕ × ℕ)} {buf out : Buf},
      runDither conv ck strength kernelAt mask w h ps buf = .ok out →
      ∀ x2 y2, (out x2 y2).a = (buf x2 y2).a := by
  intro ps
  induction ps with
  | nil =>
    intro buf out hrun x2 y2
    cases hrun
    rfl
  | cons p ps ih =>
    intro buf out hrun x2 y2
    simp only [runDither] at hrun
    cases hstep : ditherStep conv ck strength kernelAt mask w h buf p with
    | error e =>
      rw [hstep] at hrun
      cases hrun
    | ok b2 =>
      rw [hstep] at hrun
      rw [ih hrun x2 y2, ditherStep_alpha hstep x2 y2]

theorem runDither_frozen {conv : Conv} {ck : ColorKey} {strength : ℚ}
    {kernelAt : ℕ → ℕ → Kernel} {mask : ℕ → ℕ → Bool} {w h : ℕ} :
    ∀ {ps : List (ℕ × ℕ)} {buf out : Buf},
      runDither conv ck strength kernelAt mask w h ps buf = .ok out →
      ∀ x2 y2, mask x2 y2 = false → out x2 y2 = buf x2 y2 := by
  intro ps
  induction ps with
  | nil =>
    intro buf out hrun x2 y2 _
    cases hrun
    rfl
  | cons p ps ih =>
    intro buf out hrun x2 y2 hm
    simp only [runDither] at hrun
    cases hstep : ditherStep conv ck strength kernelAt mask w h buf p with
    | error e =>
      rw [hstep] at hrun
      cases hrun
    | ok b2 =>
      rw [hstep] at hrun
      rw [ih hrun x2 y2 hm, ditherStep_frozen hstep x2 y2 hm]

theorem lookup_isSome_of_mem_keys {β : Type} {n : ℤ} :
    ∀ {ck : List (ℤ × β)}, n ∈ ck.map Prod.fst → ∃ v, ck.lookup n = some v := by
  intro ck
  induction ck with
  | nil => intro h; simp at h
  | cons e t ih =>
    obtain ⟨k, v⟩ := e
    intro hmem
    simp only [List.lookup]
    by_cases hnk : n == k
    · rw [hnk]
      exact ⟨v, rfl⟩
    · rw [Bool.not_eq_true] at hnk
      rw [hnk]
      have hmem2 : n = k ∨ n ∈ t.map Prod.fst := by simpa using hmem
      rcases hmem2 with rfl | hc
      · exact absurd rfl (beq_eq_false_iff_ne.mp hnk)
      · exact ih hc

theorem lookup_of_find_closest {conv : Conv} {ck : ColorKey}
    {p : ℕ × ℕ × ℕ} {n : ℤ}
    (hf : find_closest_color conv ck p = some n) :
    ∃ v, ck.lookup n = some v := by
  unfold find_closest_color at hf
  cases hidx : argminIdx (palDists conv ck p) with
  | none =>
    rw [hidx] at hf
    cases hf
  | some i =>
    rw [hidx] at hf
    simp only [Option.some_bind] at hf
    have hmem : n ∈ palNums ck := by
      cases hnv : (palNums ck)[i]? with
      | none => rw [hnv] at hf; cases hf
      | some v2 =>
        rw [hnv] at hf
        cases hf
        obtain ⟨hlt2, heq⟩ := List.getElem?_eq_some.mp hnv
        exact heq ▸ List.getElem_mem hlt2
    exact lookup_isSome_of_mem_keys hmem

theorem runOrdered_props (conv : Conv) (ck : ColorKey) (strength : ℚ) :
    ∀ (ps : List (ℕ × ℕ)) (buf out : Buf),
      runOrdered conv ck strength ps buf = .ok out →
      (∀ x2 y2, (out x2 y2).a = (buf x2 y2).a) ∧
      (∀ x2 y2, (buf x2 y2).a = 0 → out x2 y2 = buf x2 y2)
  | [], buf, out, hrun => by
    cases hrun
    exact ⟨fun _ _ => rfl, fun _ _ _ => rfl⟩
  | (x, y) :: ps, buf, out, hrun => by
    simp only [runOrdered] at hrun
    by_cases ha : (buf x y).a = 0
    · rw [if_pos ha] at hrun
      exact runOrdered_props conv ck strength ps buf out hrun
    · rw [if_neg ha] at hrun
      split at hrun
      · cases hrun
      · split at hrun
        · cases hrun
        · rename_i i harg v hv
          obtain ⟨ihA, ihF⟩ := runOrdered_props conv ck strength ps _ out hrun
          constructor
          · intro x2 y2
            rw [ihA x2 y2, writeRGB_alpha]
          · intro x2 y2 h0
            have hne : ¬(x2 = x ∧ y2 = y) := by
              intro hc
              obtain ⟨rfl, rfl⟩ := hc
              exact ha h0
            have hw : writeRGB buf x y v.1 v.2.1 v.2.2 x2 y2 = buf x2 y2 :=
              writeRGB_other buf x y _ _ _ x2 y2 hne
            rw [ihF x2 y2 (by rw [hw]; exact h0), hw]

theorem runOrdered_ok (conv : Conv) {ck : ColorKey} (hck : ck ≠ [])
    (strength : ℚ) :
    ∀ (ps : List (ℕ × ℕ)) (buf : Buf),
      ∃ out, runOrdered conv ck strength ps buf = .ok out
  | [], buf => ⟨buf, rfl⟩
  | (x, y) :: ps, buf => by
    by_cases ha : (buf x y).a = 0
    · obtain ⟨out, hout⟩ := runOrdered_ok conv hck strength ps buf
      refine ⟨out, ?_⟩
      simp only [runOrdered]
      rw [if_pos ha]
      exact hout
    · have hd : palDists conv ck
          (clipToByte (mkRat (buf x y).r 1 *
              (if mkRat ((buf x y).r + (buf x y).g + (buf x y).b) 765 < bayerAt x y
                then mkRat 1 1 - mkRat 3 10 * strength
                else mkRat 1 1 + mkRat 3 10 * strength)),
            clipToByte (mkRat (buf x y).g 1 *
              (if mkRat ((buf x y).r + (buf x y).g + (buf x y).b) 765 < bayerAt x y
                then mkRat 1 1 - mkRat 3 10 * strength
                else mkRat 1 1 + mkRat 3 10 * strength)),
            clipToByte (mkRat (buf x y).b 1 *
              (if mkRat ((buf x y).r + (buf x y).g + (buf x y).b) 765 < bayerAt x y
                then mkRat 1 1 - mkRat 3 10 * strength
                else mkRat 1 1 + mkRat 3 10 * strength))) ≠ [] := by
        simp [palDists, palVals, hck]
      obtain ⟨i, m, him⟩ := argminAux_isSome hd
      have hidx := him
      have hlt : i < (palVals ck).length := by
        have h1 := argminAux_idx_lt him
        simpa [palDists] using h1
      have hv : (palVals ck)[i]? = some (palVals ck)[i] :=
        List.getElem?_eq_getElem hlt
      obtain ⟨out, hout⟩ := runOrdered_ok conv hck strength ps
        (writeRGB buf x y ((palVals ck)[i]).1 ((palVals ck)[i]).2.1
          ((palVals ck)[i]).2.2)
      refine ⟨out, ?_⟩
      simp only [runOrdered]
      rw [if_neg ha]
      simp only [argminIdx, him, Option.map_some', hv]
      exact hout

theorem runRandom_props (ck : ColorKey) (strength : ℚ)
    (noise : ℕ → ℚ × ℚ × ℚ) :
    ∀ (ps : List (ℕ × ℕ)) (buf out : Buf) (k : ℕ),
      runRandom ck strength noise ps buf k = .ok out →
      (∀ x2 y2, (out x2 y2).a = (buf x2 y2).a) ∧
      (∀ x2 y2, (buf x2 y2).a = 0 → out x2 y2 = buf x2 y2)
  | [], buf, out, k, hrun => by
    cases hrun
    exact ⟨fun _ _ => rfl, fun _ _ _ => rfl⟩
  | (x, y) :: ps, buf, out, k, hrun => by
    simp only [runRandom] at hrun
    split_ifs at hrun with ha
    · exact runRandom_props ck strength noise ps buf out k hrun
    · split at hrun
      · cases hrun
      · split at hrun
        · cases hrun
        · rename_i n hn v hv
          obtain ⟨ihA, ihF⟩ := runRandom_props ck strength noise ps _ out _ hrun
          constructor
          · intro x2 y2
            rw [ihA x2 y2, writeRGB_alpha]
          · intro x2 y2 h0
            have hne : ¬(x2 = x ∧ y2 = y) := by
              intro hc
              obtain ⟨rfl, rfl⟩ := hc
              exact ha h0
            have hw : writeRGB buf x y v.1 v.2.1 v.2.2 x2 y2 = buf x2 y2 :=
              writeRGB_other buf x y _ _ _ x2 y2 hne
            rw [ihF x2 y2 (by rw [hw]; exact h0), hw]

theorem runRandom_ok {ck : ColorKey} (hck : ck ≠ []) (strength : ℚ)
    (noise : ℕ → ℚ × ℚ × ℚ) :
    ∀ (ps : List (ℕ × ℕ)) (buf : Buf) (k : ℕ),
      ∃ out, runRandom ck strength noise ps buf k = .ok out
  | [], buf, k => ⟨buf, rfl⟩
  | (x, y) :: ps, buf, k => by
    by_cases ha : (buf x y).a = 0
    · obtain ⟨out, hout⟩ := runRandom_ok hck strength noise ps buf k
      refine ⟨out, ?_⟩
      simp only [runRandom]
      rw [if_pos ha]
      exact hout
    · have hs := find_closest_color_isSome rgbConv hck
        (clipToByte (mkRat (buf x y).r 1 + mkRat 32 1 * strength * (noise k).1),
         clipToByte (mkRat (buf x y).g 1 + mkRat 32 1 * strength * (noise k).2.1),
         clipToByte (mkRat (buf x y).b 1 + mkRat 32 1 * strength * (noise k).2.2))
      obtain ⟨n, hn⟩ := Option.isSome_iff_exists.mp hs
      obtain ⟨v, hv⟩ := lookup_of_find_closest hn
      obtain ⟨out, hout⟩ := runRandom_ok hck strength noise ps
        (writeRGB buf x y v.1 v.2.1 v.2.2) (k + 1)
      refine ⟨out, ?_⟩
      simp only [runRandom]
      rw [if_neg ha]
      simp only [hn, hv]
      exact hout

theorem alphaMask_false_of_zero {img : Image} {x y : ℕ}
    (h0 : (img.pix x y).a = 0) : alphaMask img x y = false := by
  simp [alphaMask, h0]

/-- C5: every dithering variant leaves the alpha channel of every pixel
unchanged and freezes alpha-0 pixels: the error-diffusion engine (for
any diffusion-kernel selection, covering the Atkinson, Floyd-Steinberg,
Stucki, Jarvis, Sierra and hybrid variants), ordered dithering, and
random dithering all succeed on a non-empty palette and produce an image
whose every pixel keeps its alpha and whose alpha-0 pixels are returned
exactly as given — never rewritten and never receiving diffused error. -/
theorem dithering_alpha_frozen (conv : Conv) {ck : ColorKey} (hck : ck ≠ [])
    (strength : ℚ) (kernelAt : ℕ → ℕ → Kernel) (noise : ℕ → ℚ × ℚ × ℚ)
    (img : Image) :
    (∃ out,
      optimized_error_diffusion_dithering conv ck strength kernelAt img = .ok out ∧
      out.width = img.width ∧ out.height = img.height ∧
      (∀ x y, (out.pix x y).a = (img.pix x y).a) ∧
      (∀ x y, (img.pix x y).a = 0 → out.pix x y = img.pix x y)) ∧
    (∃ out, ordered_dithering conv ck strength img = .ok out ∧
      out.width = img.width ∧ out.height = img.height ∧
      (∀ x y, (out.pix x y).a = (img.pix x y).a) ∧
      (∀ x y, (img.pix x y).a = 0 → out.pix x y = img.pix x y)) ∧
    (∃ out, random_dithering ck strength noise img = .ok out ∧
      out.width = img.width ∧ out.height = img.height ∧
      (∀ x y, (out.pix x y).a = (img.pix x y).a) ∧
      (∀ x y, (img.pix x y).a = 0 → out.pix x y = img.pix x y)) := by
  refine ⟨?_, ?_, ?_⟩
  · obtain ⟨outbuf, hout⟩ := runDither_ok conv hck strength kernelAt
      (alphaMask img) img.width img.height
      (rowMajorPositions img.width img.height) img.pix
    refine ⟨⟨img.width, img.height, outbuf⟩, ?_, rfl, rfl, ?_, ?_⟩
    · rw [optimized_error_diffusion_dithering, hout]
      rfl
    · exact fun x y => runDither_alpha hout x y
    · exact fun x y h0 => runDither_frozen hout x y (alphaMask_false_of_zero h0)
  · obtain ⟨outbuf, hout⟩ := runOrdered_ok conv hck strength
      (rowMajorPositions img.width img.height) img.pix
    obtain ⟨hA, hF⟩ := runOrdered_props conv ck strength _ _ _ hout
    refine ⟨⟨img.width, img.height, outbuf⟩, ?_, rfl, rfl, hA, hF⟩
    rw [ordered_dithering, hout]
    rfl
  · obtain ⟨outbuf, hout⟩ := runRandom_ok hck strength noise
      (rowMajorPositions img.width img.height) img.pix 0
    obtain ⟨hA, hF⟩ := runRandom_props ck strength noise _ _ _ _ hout
    refine ⟨⟨img.width, img.height, outbuf⟩, ?_, rfl, rfl, hA, hF⟩
    rw [random_dithering, hout]
    rfl

/-- The all-zero ambient RNG stream. -/
def zeroNoise : ℕ → ℚ × ℚ × ℚ := fun _ => (mkRat 0 1, mkRat 0 1, mkRat 0 1)

/-- A constant strongly negative ambient RNG stream. -/
def negNoise : ℕ → ℚ × ℚ × ℚ :=
  fun _ => (mkRat (-8) 1, mkRat (-8) 1, mkRat (-8) 1)

/-- A 1x1 fully opaque white image. -/
def imgWhite : Image := ⟨1, 1, fun _ _ => ⟨255, 255, 255, 255⟩⟩

/-- A two-entry black-and-white palette. -/
def ckBW : ColorKey := [(0, (255, 255, 255)), (1, (0, 0, 0))]

/-- The all-false saliency map fixture for hybrid dithering. -/
def salNone : ℕ → ℕ → Bool := fun _ _ => false

/-- A 1x1 fully transparent image. -/
def imgClear : Image := ⟨1, 1, fun _ _ => ⟨0, 0, 0, 0⟩⟩

/-- Witness for C5 at a concrete image, palette, kernel and stream. -/
theorem dithering_alpha_frozen_witness :
    ckOne ≠ [] ∧
    ((∃ out,
      optimized_error_diffusion_dithering rgbConv ckOne (mkRat 1 1)
        (fun _ _ => atkinsonMatrix) imgOne = .ok out ∧
      out.width = imgOne.width ∧ out.height = imgOne.height ∧
      (∀ x y, (out.pix x y).a = (imgOne.pix x y).a) ∧
      (∀ x y, (imgOne.pix x y).a = 0 → out.pix x y = imgOne.pix x y)) ∧
    (∃ out, ordered_dithering rgbConv ckOne (mkRat 1 1) imgOne = .ok out ∧
      out.width = imgOne.width ∧ out.height = imgOne.height ∧
      (∀ x y, (out.pix x y).a = (imgOne.pix x y).a) ∧
      (∀ x y, (imgOne.pix x y).a = 0 → out.pix x y = imgOne.pix x y)) ∧
    (∃ out, random_dithering ckOne (mkRat 1 1) zeroNoise imgOne = .ok out ∧
      out.width = imgOne.width ∧ out.height = imgOne.height ∧
      (∀ x y, (out.pix x y).a = (imgOne.pix x y).a) ∧
      (∀ x y, (imgOne.pix x y).a = 0 → out.pix x y = imgOne.pix x y))) :=
  ⟨by decide,
    dithering_alpha_frozen rgbConv (by decide) (mkRat 1 1)
      (fun _ _ => atkinsonMatrix) zeroNoise imgOne⟩

theorem argminIdx_palDists_empty (conv : Conv) (p : ℕ × ℕ × ℕ) :
    argminIdx (palDists conv [] p) = none := rfl

theorem find_closest_color_empty (conv : Conv) (p : ℕ × ℕ × ℕ) :
    find_closest_color conv [] p = none := rfl

theorem ditherStep_error_empty (conv : Conv) (strength : ℚ)
    (kernelAt : ℕ → ℕ → Kernel) (mask : ℕ → ℕ → Bool) (w h : ℕ)
    (buf : Buf) (pos : ℕ × ℕ) (hm : mask pos.1 pos.2 = true) :
    ditherStep conv [] strength kernelAt mask w h buf pos =
      .error "argmin of an empty sequence" := by
  simp only [ditherStep]
  rw [if_neg (by simp [hm]), argminIdx_palDists_empty]

theorem runDither_error_empty (conv : Conv) (strength : ℚ)
    (kernelAt : ℕ → ℕ → Kernel) (mask : ℕ → ℕ → Bool) (w h : ℕ) :
    ∀ (ps : List (ℕ × ℕ)) (buf : Buf),
      (∃ p ∈ ps, mask p.1 p.2 = true) →
      runDither conv [] strength kernelAt mask w h ps buf =
        .error "argmin of an empty sequence"
  | [], _, hex => by simp at hex
  | q :: ps, buf, hex => by
    by_cases hq : mask q.1 q.2 = true
    · simp only [runDither,
        ditherStep_error_empty conv strength kernelAt mask w h buf q hq]
    · obtain ⟨p, hp, hpm⟩ := hex
      have hps : ∃ p ∈ ps, mask p.1 p.2 = true := by
        rcases List.mem_cons.mp hp with rfl | hmem
        · exact absurd hpm hq
        · exact ⟨p, hmem, hpm⟩
      have hqf : mask q.1 q.2 = false := by
        rw [Bool.not_eq_true] at hq
        exact hq
      have hstep : ditherStep conv [] strength kernelAt mask w h buf q =
          .ok buf := by
        simp only [ditherStep]
        rw [if_pos hqf]
      simp only [runDither, hstep]
      exact runDither_error_empty conv strength kernelAt mask w h ps buf hps

theorem runOrdered_error_empty (conv : Conv) (strength : ℚ) :
    ∀ (ps : List (ℕ × ℕ)) (buf : Buf),
      (∃ p ∈ ps, (buf p.1 p.2).a ≠ 0) →
      runOrdered conv [] strength ps buf =
        .error "argmin of an empty sequence"
  | [], _, hex => by simp at hex
  | (x, y) :: ps, buf, hex => by
    by_cases ha : (buf x y).a = 0
    · obtain ⟨p, hp, hpa⟩ := hex
      have hps : ∃ p ∈ ps, (buf p.1 p.2).a ≠ 0 := by
        rcases List.mem_cons.mp hp with rfl | hmem
        · exact absurd ha hpa
        · exact ⟨p, hmem, hpa⟩
      simp only [runOrdered]
      rw [if_pos ha]
      exact runOrdered_error_empty conv strength ps buf hps
    · simp only [runOrdered]
      rw [if_neg ha, argminIdx_palDists_empty]

theorem runRandom_error_empty (strength : ℚ) (noise : ℕ → ℚ × ℚ × ℚ) :
    ∀ (ps : List (ℕ × ℕ)) (buf : Buf) (k : ℕ),
      (∃ p ∈ ps, (buf p.1 p.2).a ≠ 0) →
      runRandom [] strength noise ps buf k =
        .error "argmin of an empty sequence"
  | [], _, _, hex => by simp at hex
  | (x, y) :: ps, buf, k, hex => by
    by_cases ha : (buf x y).a = 0
    · obtain ⟨p, hp, hpa⟩ := hex
      have hps : ∃ p ∈ ps, (buf p.1 p.2).a ≠ 0 := by
        rcases List.mem_cons.mp hp with rfl | hmem
        · exact absurd ha hpa
        · exact ⟨p, hmem, hpa⟩
      simp only [runRandom]
      rw [if_pos ha]
      exact runRandom_error_empty strength noise ps buf k hps
    · simp only [runRandom]
      rw [if_neg ha, find_closest_color_empty]

theorem mem_rowMajorPositions {w h x y : ℕ} :
    (x, y) ∈ rowMajorPositions w h ↔ x < w ∧ y < h := by
  simp only [rowMajorPositions, List.mem_flatMap, List.mem_map, List.mem_range]
  constructor
  · rintro ⟨y2, hy2, x2, hx2, heq⟩
    cases heq
    exact ⟨hx2, hy2⟩
  · rintro ⟨hx, hy⟩
    exact ⟨y, hy, x, hx, rfl⟩

/-- Counterexample to C7 as stated: a processing call with an empty
palette does not always fail — Atkinson dithering of a fully transparent
image with no enabled palette entries completes without any error,
because no pixel ever reaches a nearest-color lookup. -/
theorem empty_palette_not_always_rejected :
    exceptOk (process_image rgbConv .atkinson [] (mkRat 1 1) salNone
      zeroNoise imgClear) = true := by
  decide

/-- C7 (amended): with an empty palette, a processing operation fails as
soon as it must consult the palette, and the raised error aborts the run
(no result image is produced): color matching always fails, and every
dithering mode fails whenever the image holds at least one pixel with
alpha > 0; there is no up-front palette validation, so a dithering call
on an image without such a pixel completes without error. -/
theorem empty_palette_rejection (conv : Conv) (strength : ℚ)
    (saliency : ℕ → ℕ → Bool) (noise : ℕ → ℚ × ℚ × ℚ) (img : Image) :
    exceptOk (process_image conv .colorMatch [] strength saliency noise img) =
      false ∧
    ((∃ x y, x < img.width ∧ y < img.height ∧ (img.pix x y).a ≠ 0) →
      ∀ mode, exceptOk (process_image conv mode [] strength saliency noise img) =
        false) := by
  have hcm : exceptOk
      (process_image conv .colorMatch [] strength saliency noise img) = false := rfl
  refine ⟨hcm, ?_⟩
  rintro ⟨x, y, hx, hy, ha⟩ mode
  have hmem : (x, y) ∈ rowMajorPositions img.width img.height :=
    mem_rowMajorPositions.mpr ⟨hx, hy⟩
  have hmask : alphaMask img x y = true := by
    simp only [alphaMask, decide_eq_true_eq]
    omega
  have hdith : ∀ kernelAt, exceptOk
      (optimized_error_diffusion_dithering conv [] strength kernelAt img) =
        false := by
    intro kernelAt
    rw [optimized_error_diffusion_dithering,
      runDither_error_empty conv strength kernelAt (alphaMask img)
        img.width img.height _ _ ⟨(x, y), hmem, hmask⟩]
    rfl
  cases mode with
  | colorMatch => exact hcm
  | atkinson => exact hdith _
  | floyd => exact hdith _
  | stucki => exact hdith _
  | jarvis => exact hdith _
  | sierra => exact hdith _
  | hybridMode => exact hdith _
  | patternMode =>
    show exceptOk (ordered_dithering conv [] strength img) = false
    rw [ordered_dithering,
      runOrdered_error_empty conv strength _ _ ⟨(x, y), hmem, ha⟩]
    rfl
  | randomMode =>
    show exceptOk (random_dithering [] strength noise img) = false
    rw [random_dithering,
      runRandom_error_empty strength noise _ _ 0 ⟨(x, y), hmem, ha⟩]
    rfl

/-- Witness for the amended C7 at a concrete opaque image. -/
theorem empty_palette_rejection_witness :
    exceptOk (process_image rgbConv .colorMatch [] (mkRat 1 1) salNone
      zeroNoise imgOne) = false ∧
    exceptOk (process_image rgbConv .atkinson [] (mkRat 1 1) salNone
      zeroNoise imgOne) = false :=
  ⟨(empty_palette_rejection rgbConv (mkRat 1 1) salNone zeroNoise imgOne).1,
   (empty_palette_rejection rgbConv (mkRat 1 1) salNone zeroNoise imgOne).2
     ⟨0, 0, by decide, by decide, by decide⟩ .atkinson⟩

theorem mkRat_nat_cast (r : ℕ) : (mkRat (r : ℤ) 1 : ℚ) = (r : ℚ) := by
  rw [Rat.mkRat_one]
  exact Int.cast_natCast r

theorem mkRat_zero_eq : (mkRat 0 1 : ℚ) = 0 := by
  rw [Rat.mkRat_one]
  norm_num

theorem clipToByte_natCast {r : ℕ} (hr : r ≤ 255) :
    clipToByte (mkRat r 1) = r := by
  rw [clipToByte, mkRat_nat_cast, mkRat_zero_eq]
  have h255 : (mkRat 255 1 : ℚ) = 255 := by
    rw [Rat.mkRat_one]
    norm_num
  rw [h255]
  have hr0 : (0 : ℚ) ≤ (r : ℚ) := Nat.cast_nonneg r
  have hr255 : (r : ℚ) ≤ 255 := by exact_mod_cast hr
  have hpm : pymax ((r : ℚ)) 0 = (r : ℚ) := by
    unfold pymax
    split_ifs with h1
    · exact le_antisymm hr0 h1
    · rfl
  have hpn : pymin ((r : ℚ)) 255 = (r : ℚ) := by
    unfold pymin
    rw [if_pos hr255]
  rw [hpm, hpn, Int.floor_natCast]
  simp

theorem noise_term_zero (strength : ℚ) :
    mkRat 32 1 * strength * mkRat 0 1 = 0 := by
  rw [mkRat_zero_eq, mul_zero]

theorem clip_plus_zero {r : ℕ} (hr : r ≤ 255) (strength : ℚ) :
    clipToByte (mkRat r 1 + mkRat 32 1 * strength * mkRat 0 1) = r := by
  rw [noise_term_zero, add_zero]
  exact clipToByte_natCast hr

theorem nodup_rowMajorPositions (w h : ℕ) : (rowMajorPositions w h).Nodup := by
  rw [rowMajorPositions, List.nodup_flatMap]
  constructor
  · intro y _
    exact List.Nodup.map (fun a b hab => congrArg Prod.fst hab)
      (List.nodup_range w)
  · apply List.Pairwise.imp ?_ (List.pairwise_lt_range h)
    intro y1 y2 hlt
    intro a ha1 ha2
    simp only [List.mem_map] at ha1 ha2
    obtain ⟨x1, -, rfl⟩ := ha1
    obtain ⟨x2, -, heq⟩ := ha2
    cases heq
    omega

theorem runRandom_zero_char {ck : ColorKey} (hck : ck ≠ []) (strength : ℚ) :
    ∀ (ps : List (ℕ × ℕ)), ps.Nodup → ∀ (buf : Buf) (k : ℕ),
      (∀ p ∈ ps, (buf p.1 p.2).r ≤ 255 ∧ (buf p.1 p.2).g ≤ 255 ∧
        (buf p.1 p.2).b ≤ 255) →
      ∃ out, runRandom ck strength zeroNoise ps buf k = .ok out ∧
        (∀ p : ℕ × ℕ, p ∉ ps → out p.1 p.2 = buf p.1 p.2) ∧
        (∀ p ∈ ps,
          ((buf p.1 p.2).a = 0 → out p.1 p.2 = buf p.1 p.2) ∧
          ((buf p.1 p.2).a ≠ 0 → ∃ n v,
            find_closest_color rgbConv ck (buf p.1 p.2).rgb = some n ∧
            ck.lookup n = some v ∧
            out p.1 p.2 = ⟨v.1, v.2.1, v.2.2, (buf p.1 p.2).a⟩))
  | [], _, buf, k, _ => ⟨buf, rfl, fun _ _ => rfl, fun p hp => by simp at hp⟩
  | (x, y) :: ps, hnd, buf, k, hbytes => by
    have hxy_ps : (x, y) ∉ ps := (List.nodup_cons.mp hnd).1
    have hndt : ps.Nodup := (List.nodup_cons.mp hnd).2
    by_cases ha : (buf x y).a = 0
    · obtain ⟨out, hout, hun, hin⟩ := runRandom_zero_char hck strength ps hndt buf k
        (fun p hp => hbytes p (List.mem_cons_of_mem _ hp))
      refine ⟨out, ?_, ?_, ?_⟩
      · simp only [runRandom]
        rw [if_pos ha]
        exact hout
      · intro p hp
        exact hun p (fun hc => hp (List.mem_cons_of_mem _ hc))
      · intro p hp
        rcases List.mem_cons.mp hp with rfl | hmem
        · exact ⟨fun _ => hun (x, y) hxy_ps, fun hc => absurd ha hc⟩
        · exact hin p hmem
    · obtain ⟨hr, hg, hb⟩ := hbytes (x, y) (List.mem_cons_self _ _)
      have hnr : clipToByte (mkRat (buf x y).r 1 +
          mkRat 32 1 * strength * mkRat 0 1) = (buf x y).r := clip_plus_zero hr strength
      have hng : clipToByte (mkRat (buf x y).g 1 +
          mkRat 32 1 * strength * mkRat 0 1) = (buf x y).g := clip_plus_zero hg strength
      have hnb : clipToByte (mkRat (buf x y).b 1 +
          mkRat 32 1 * strength * mkRat 0 1) = (buf x y).b := clip_plus_zero hb strength
      have hfs := find_closest_color_isSome rgbConv hck (buf x y).rgb
      obtain ⟨n, hn⟩ := Option.isSome_iff_exists.mp hfs
      obtain ⟨v, hv⟩ := lookup_of_find_closest hn
      have hn2 : find_closest_color rgbConv ck
          ((buf x y).r, (buf x y).g, (buf x y).b) = some n := hn
      have hb2 : ∀ p ∈ ps,
          (writeRGB buf x y v.1 v.2.1 v.2.2) p.1 p.2 = buf p.1 p.2 := by
        intro p hp
        obtain ⟨px, py⟩ := p
        apply writeRGB_other
        rintro ⟨rfl, rfl⟩
        exact hxy_ps hp
      obtain ⟨out, hout, hun, hin⟩ := runRandom_zero_char hck strength ps hndt
        (writeRGB buf x y v.1 v.2.1 v.2.2) (k + 1)
        (fun p hp => by
          rw [hb2 p hp]
          exact hbytes p (List.mem_cons_of_mem _ hp))
      refine ⟨out, ?_, ?_, ?_⟩
      · simp only [runRandom, zeroNoise]
        rw [if_neg ha]
        rw [hnr, hng, hnb]
        simp only [hn2, hv]
        exact hout
      · intro p hp
        have hp2 : p ∉ ps := fun hc => hp (List.mem_cons_of_mem _ hc)
        have hpxy : p ≠ (x, y) := fun hc => hp (hc ▸ List.mem_cons_self _ _)
        rw [hun p hp2]
        obtain ⟨px, py⟩ := p
        apply writeRGB_other
        rintro ⟨rfl, rfl⟩
        exact hpxy rfl
      · intro p hp
        rcases List.mem_cons.mp hp with rfl | hmem
        · refine ⟨fun hc => absurd hc ha, fun _ => ⟨n, v, hn, hv, ?_⟩⟩
          exact (hun (x, y) hxy_ps).trans (writeRGB_self buf x y v.1 v.2.1 v.2.2)
        · have hb2p := hb2 p hmem
          obtain ⟨hA, hB⟩ := hin p hmem
          constructor
          · intro h0
            rw [hA (by rw [hb2p]; exact h0), hb2p]
          · intro h0
            obtain ⟨n2, v2, hn3, hv2, hout2⟩ := hB (by rw [hb2p]; exact h0)
            rw [hb2p] at hn3
            refine ⟨n2, v2, hn3, hv2, ?_⟩
            rw [hout2, hb2p]

/-- C8 (amended): random dithering has no seed parameter — its declared
parameter set holds only `strength` — and its output depends on the
ambient RNG stream: runs are reproducible exactly when the consumed
stream coincides (same stream implies identical output), and with the
zero stream every non-transparent pixel is simply mapped to its nearest
palette color, showing the draws are the only extra input.  Ordered and
error-diffusion variants consume no stream at all. -/
theorem random_dithering_seed_amended {ck : ColorKey} (hck : ck ≠ [])
    (strength : ℚ) (img : Image)
    (hbytes : ∀ x y, (img.pix x y).r ≤ 255 ∧ (img.pix x y).g ≤ 255 ∧
      (img.pix x y).b ≤ 255) :
    (∀ n1 n2 : ℕ → ℚ × ℚ × ℚ, (∀ k, n1 k = n2 k) →
      random_dithering ck strength n1 img = random_dithering ck strength n2 img) ∧
    (∃ out, random_dithering ck strength zeroNoise img = .ok out ∧
      out.width = img.width ∧ out.height = img.height ∧
      ∀ x y, x < img.width → y < img.height →
        ((img.pix x y).a = 0 → out.pix x y = img.pix x y) ∧
        ((img.pix x y).a ≠ 0 → ∃ n v,
          find_closest_color rgbConv ck (img.pix x y).rgb = some n ∧
          ck.lookup n = some v ∧
          out.pix x y = ⟨v.1, v.2.1, v.2.2, (img.pix x y).a⟩)) := by
  constructor
  · intro n1 n2 hagree
    rw [funext hagree]
  · obtain ⟨outbuf, hout, hun, hin⟩ := runRandom_zero_char hck strength
      (rowMajorPositions img.width img.height)
      (nodup_rowMajorPositions img.width img.height)
      img.pix 0 (fun p _ => hbytes p.1 p.2)
    refine ⟨⟨img.width, img.height, outbuf⟩, ?_, rfl, rfl, ?_⟩
    · rw [random_dithering, hout]
      rfl
    · intro x y hx hy
      exact hin (x, y) (mem_rowMajorPositions.mpr ⟨hx, hy⟩)

/-- Witness for the amended C8 at a concrete image and palette. -/
theorem random_dithering_seed_amended_witness :
    ckBW ≠ [] ∧
    ((∀ n1 n2 : ℕ → ℚ × ℚ × ℚ, (∀ k, n1 k = n2 k) →
      random_dithering ckBW (mkRat 1 1) n1 imgWhite =
        random_dithering ckBW (mkRat 1 1) n2 imgWhite) ∧
    (∃ out, random_dithering ckBW (mkRat 1 1) zeroNoise imgWhite = .ok out ∧
      out.width = imgWhite.width ∧ out.height = imgWhite.height ∧
      ∀ x y, x < imgWhite.width → y < imgWhite.height →
        ((imgWhite.pix x y).a = 0 → out.pix x y = imgWhite.pix x y) ∧
        ((imgWhite.pix x y).a ≠ 0 → ∃ n v,
          find_closest_color rgbConv ckBW (imgWhite.pix x y).rgb = some n ∧
          ckBW.lookup n = some v ∧
          out.pix x y = ⟨v.1, v.2.1, v.2.2, (imgWhite.pix x y).a⟩))) :=
  ⟨by decide,
    random_dithering_seed_amended (by decide) (mkRat 1 1) imgWhite
      (fun x y => ⟨by simp [imgWhite], by simp [imgWhite], by simp [imgWhite]⟩)⟩

/-- Counterexample to C8 as stated: two runs of random dithering on the
identical image, palette and full parameter set (strength only — no
seed exists among the parameters) produce different outputs when the
ambient RNG stream differs, so no parameter value can make runs
reproducible. -/
theorem random_dithering_not_param_reproducible :
    ∃ o1 o2, random_dithering ckBW (mkRat 1 1) zeroNoise imgWhite = .ok o1 ∧
      random_dithering ckBW (mkRat 1 1) negNoise imgWhite = .ok o2 ∧
      o1.pix 0 0 = ⟨255, 255, 255, 255⟩ ∧
      o2.pix 0 0 = ⟨0, 0, 0, 255⟩ ∧
      o1.pix 0 0 ≠ o2.pix 0 0 := by
  obtain ⟨outbuf, hout, hun, hin⟩ := @runRandom_zero_char ckBW
    (by decide) (mkRat 1 1) (rowMajorPositions 1 1)
    (nodup_rowMajorPositions 1 1) imgWhite.pix 0
    (fun p _ => ⟨by simp [imgWhite], by simp [imgWhite], by simp [imgWhite]⟩)
  have hmem : ((0, 0) : ℕ × ℕ) ∈ rowMajorPositions 1 1 := by decide
  obtain ⟨n, v, hn, hv, hpix⟩ := (hin (0, 0) hmem).2 (by decide)
  have hn0 : n = 0 := by
    have hf : find_closest_color rgbConv ckBW (imgWhite.pix 0 0).rgb =
        some 0 := by decide
    rw [hf] at hn
    cases hn
    rfl
  subst hn0
  have hv0 : v = (255, 255, 255) := by
    have hl : ckBW.lookup (0 : ℤ) = some (255, 255, 255) := by decide
    rw [hl] at hv
    cases hv
    rfl
  subst hv0
  have hclip :
      clipToByte (mkRat ((255 : ℕ) : ℤ) 1 + mkRat 32 1 * mkRat 1 1 * mkRat (-8) 1) = 0 := by
    have hval :
        (mkRat ((255 : ℕ) : ℤ) 1 + mkRat 32 1 * mkRat 1 1 * mkRat (-8) 1 : ℚ) = -1 := by
      rw [Rat.mkRat_one, Rat.mkRat_one, Rat.mkRat_one, Rat.mkRat_one]
      push_cast
      norm_num
    rw [clipToByte, hval, mkRat_zero_eq]
    have h255 : (mkRat 255 1 : ℚ) = 255 := by
      rw [Rat.mkRat_one]
      norm_num
    rw [h255]
    unfold pymax pymin
    norm_num
  have hrun2 : runRandom ckBW (mkRat 1 1) negNoise [(0, 0)] imgWhite.pix 0 =
      .ok (writeRGB imgWhite.pix 0 0 0 0 0) := by
    simp only [runRandom, negNoise, imgWhite]
    rw [if_neg (by decide)]
    rw [hclip]
    have hf1 : find_closest_color rgbConv ckBW (0, 0, 0) = some 1 := by decide
    have hl1 : ckBW.lookup (1 : ℤ) = some (0, 0, 0) := by decide
    simp only [hf1, hl1]
  have h2 : random_dithering ckBW (mkRat 1 1) negNoise imgWhite =
      .ok ⟨1, 1, writeRGB imgWhite.pix 0 0 0 0 0⟩ := by
    show Except.map (fun buf => (⟨1, 1, buf⟩ : Image))
      (runRandom ckBW (mkRat 1 1) negNoise (rowMajorPositions 1 1)
        imgWhite.pix 0) = _
    have hpos : rowMajorPositions 1 1 = [(0, 0)] := rfl
    rw [hpos, hrun2]
    rfl
  refine ⟨⟨1, 1, outbuf⟩, ⟨1, 1, writeRGB imgWhite.pix 0 0 0 0 0⟩, ?_, h2, ?_, ?_, ?_⟩
  · show Except.map (fun buf => (⟨1, 1, buf⟩ : Image))
      (runRandom ckBW (mkRat 1 1) zeroNoise (rowMajorPositions 1 1)
        imgWhite.pix 0) = _
    rw [hout]
    rfl
  · exact hpix
  · exact writeRGB_self imgWhite.pix 0 0 0 0 0
  · show outbuf 0 0 ≠ writeRGB imgWhite.pix 0 0 0 0 0 0 0
    have hpix2 : outbuf 0 0 = (⟨255, 255, 255, 255⟩ : Pixel) := hpix
    rw [hpix2, writeRGB_self]
    decide

end StampMod
